import Mathlib

/-!
Verification development for the genQA-eval evaluation engine.

The definitions below are shallow embeddings of the Python sources:
  * `metrics/text_metrics.py`   — lexical metrics (BLEU, ROUGE-L, SQuAD EM/F1, content F1)
  * `metrics/rag_evaluator.py`  — LLM-judge score model
  * `llm/openai_llm.py` / `llm/openai_embeddings.py` — retry transport
  * `db/db.py`, `services/rag_eval_service.py` — persistence and orchestration

Python floats are modelled as exact rationals (ℚ) for the arithmetic that the
code performs with `/`, `min`, `max`, and as real numbers (ℝ) where the code
calls the transcendental `math.exp` / `math.log`.  Character classes of the
regexes are modelled at ASCII scope (`\w` = alphanumeric or underscore,
`\s` = whitespace).  Code that can raise is modelled with `Option`.
-/

namespace GenQAEval

theorem length_dropWhile_le {α} (p : α → Bool) (l : List α) :
    (l.dropWhile p).length ≤ l.length := by
  induction l with
  | nil => simp
  | cons a l ih =>
    rw [List.dropWhile_cons]
    split
    · exact le_trans ih (by simp)
    · simp

/-! ### Tokenization and normalization (`text_metrics.py` lines 20-38) -/

/-- Model of Python `\w` at ASCII scope: a word character is alphanumeric or
an underscore. -/
def isWordChar (c : Char) : Bool :=
  c.isAlphanum || c = '_'

/-- `_tokenize` worker: split by the regex `\w+|\S`: a token is a maximal run
of word characters or a single non-space symbol; whitespace is skipped.
The structural fuel starts at the list length; each step consumes at least
one character, so the fuel never runs out. -/
def tokenizeGo : ℕ → List Char → List String
  | 0, _ => []
  | _, [] => []
  | fuel + 1, c :: cs =>
    if c.isWhitespace then tokenizeGo fuel cs
    else if isWordChar c then
      (String.mk (c :: cs.takeWhile isWordChar)) :: tokenizeGo fuel (cs.dropWhile isWordChar)
    else
      String.mk [c] :: tokenizeGo fuel cs

/-- `_tokenize`: casefold, then split by `\w+|\S`.  Casefolding is modelled
as `Char.toLower` (ASCII scope). -/
def tokenize (text : String) : List String :=
  tokenizeGo text.data.length (text.data.map Char.toLower)

/-- Worker for `wordRuns`, with the same fuel discipline as `tokenizeGo`. -/
def wordRunsGo : ℕ → List Char → List (List Char)
  | 0, _ => []
  | _, [] => []
  | fuel + 1, c :: cs =>
    if isWordChar c then
      (c :: cs.takeWhile isWordChar) :: wordRunsGo fuel (cs.dropWhile isWordChar)
    else
      wordRunsGo fuel cs

/-- Maximal runs of word characters in a character list (used to model the
word boundaries `\b` of `_normalize_for_em` after punctuation has been
replaced by spaces, when every character is either a word character or
whitespace). -/
def wordRuns (cs : List Char) : List (List Char) :=
  wordRunsGo cs.length cs

/-- `_normalize_for_em`, steps 1-2: casefold and replace every character
matching `[^\w\s]` by a space. -/
def emStripPunct (text : String) : List Char :=
  (text.data.map Char.toLower).map
    (fun c => if isWordChar c || c.isWhitespace then c else ' ')

/-- The word list of the SQuAD-normalized string: after punctuation removal
the string consists of word characters and whitespace only, so
`re.sub(r"\b(a|an|the)\b", " ", ...)` deletes exactly the maximal word runs
equal to an article, and `re.sub(r"\s+", " ", ...).strip()` joins the
remaining runs with single spaces.  `emTokens` is that remaining run list;
it is also `_normalize_for_em(text).split()` as used by `squad_token_f1`. -/
def emTokens (text : String) : List String :=
  ((wordRuns (emStripPunct text)).map String.mk).filter
    (fun w => !(w = "a" || w = "an" || w = "the"))

/-- `_normalize_for_em`: the normalized string itself. -/
def normalizeForEm (text : String) : String :=
  String.intercalate " " (emTokens text)

/-- `_content_tokens`: drop tokens that are purely digits and tokens shorter
than 3 characters. -/
def contentTokens (toks : List String) : List String :=
  toks.filter (fun t => !(t.data ≠ [] && t.data.all Char.isDigit) && 3 ≤ t.length)

/-! ### LCS and ROUGE-L (`text_metrics.py` lines 66-113) -/

/-- LCS length.  `_lcs_length` evaluates the textbook recurrence
`L(a::as, b::bs) = L(as,bs)+1` on a match and `max (L(as,b::bs)) (L(a::as,bs))`
otherwise with a rolling one-row dynamic program; this is that recurrence. -/
def lcsLen : List String → List String → ℕ
  | [], _ => 0
  | _ :: _, [] => 0
  | a :: as, b :: bs =>
    if a = b then lcsLen as bs + 1
    else max (lcsLen as (b :: bs)) (lcsLen (a :: as) bs)
termination_by a b => a.length + b.length
decreasing_by
  · simp only [List.length_cons]; omega
  · simp only [List.length_cons]; omega
  · simp only [List.length_cons]; omega

structure RougeResult where
  precision : ℚ
  «recall» : ℚ
  f1 : ℚ
  lcs : ℕ
deriving DecidableEq, Repr

/-- One iteration of the reference loop of `rouge_l`: keep the candidate best
record unless this reference achieves a strictly higher F-beta. -/
def rougeStep (cToks : List String) (beta2 : ℚ) (best : RougeResult) (ref : String) :
    RougeResult :=
  let rToks := tokenize ref
  if rToks = [] then best
  else
    let l := lcsLen cToks rToks
    let p : ℚ := (l : ℚ) / (cToks.length : ℚ)
    let r : ℚ := (l : ℚ) / (rToks.length : ℚ)
    let f1 : ℚ := if p = 0 ∧ r = 0 then 0 else (1 + beta2) * p * r / (r + beta2 * p)
    if f1 > best.f1 then ⟨p, r, f1, l⟩ else best

/-- `rouge_l` (list-of-references form; a single string reference is passed as
a one-element list by the callers in scope). -/
def rouge_l (candidate : String) (references : List String) (beta : ℚ := 1) :
    RougeResult :=
  let cToks := tokenize candidate
  if cToks = [] then ⟨0, 0, 0, 0⟩
  else references.foldl (rougeStep cToks (beta * beta)) ⟨0, 0, 0, 0⟩

/-! ### SQuAD EM and token F1 (`text_metrics.py` lines 181-227) -/

/-- `squad_em`: 1.0 if the normalized candidate equals the normalized form of
any reference, else 0.0. -/
def squad_em (candidate : String) (references : List String) : ℚ :=
  if references.any (fun r => normalizeForEm candidate = normalizeForEm r) then 1 else 0

/-- `sum((Counter(a) & Counter(b)).values())`: the size of the multiset
intersection (per-element minimum of counts). -/
def interCount (a b : List String) : ℕ :=
  Multiset.card ((a : Multiset String) ∩ (b : Multiset String))

/-- One iteration of the reference loop of `squad_token_f1`. -/
def squadF1Step (cand : List String) (best : ℚ) (r : String) : ℚ :=
  let ref := emTokens r
  if ref = [] then best
  else
    let num := interCount cand ref
    let f1 : ℚ :=
      if num = 0 then 0
      else
        let p : ℚ := (num : ℚ) / (cand.length : ℚ)
        let s : ℚ := (num : ℚ) / (ref.length : ℚ)
        2 * p * s / (p + s)
    max best f1

/-- `squad_token_f1`. -/
def squad_token_f1 (candidate : String) (references : List String) : ℚ :=
  let cand := emTokens candidate
  if cand = [] then 0
  else references.foldl (squadF1Step cand) 0

/-! ### Content-word F1 (`text_metrics.py` lines 231-261) -/

structure ContentResult where
  precision : ℚ
  «recall» : ℚ
  f1 : ℚ
deriving DecidableEq, Repr

/-- One iteration of the reference loop of `content_f1`. -/
def contentStep (c : List String) (best : ContentResult) (r : String) : ContentResult :=
  let rT := contentTokens (tokenize r)
  if rT = [] then best
  else
    let num := interCount c rT
    let p : ℚ := if c ≠ [] then (num : ℚ) / (c.length : ℚ) else 0
    let rc : ℚ := if rT ≠ [] then (num : ℚ) / (rT.length : ℚ) else 0
    let f1 : ℚ := if p = 0 ∧ rc = 0 then 0 else 2 * p * rc / (p + rc)
    if f1 > best.f1 then ⟨p, rc, f1⟩ else best

/-- `content_f1`. -/
def content_f1 (candidate : String) (references : List String) : ContentResult :=
  let c := contentTokens (tokenize candidate)
  if c = [] then ⟨0, 0, 0⟩
  else references.foldl (contentStep c) ⟨0, 0, 0⟩

/-! ### BLEU (`text_metrics.py` lines 40-64 and 115-177) -/

/-- `_ngrams`: `[tuple(tokens[i:i+n]) for i in range(len(tokens)-n+1)]`; the
Python range is empty when `n > len(tokens)`. -/
def ngrams (tokens : List String) (n : ℕ) : List (List String) :=
  if n ≤ tokens.length then
    (List.range (tokens.length - n + 1)).map (fun i => (tokens.drop i).take n)
  else []

/-- `max((r.get(g, 0) for r in refs_ngrams), default=0)`. -/
def maxRefCount (refsNgrams : List (List (List String))) (g : List String) : ℕ :=
  (refsNgrams.map (fun r => r.count g)).foldr max 0

/-- `_clip_counts_across_refs`: iterate the distinct candidate n-grams and sum
the candidate count clipped by the maximum count in any single reference. -/
def clipCountsAcrossRefs (cand : List (List String))
    (refsNgrams : List (List (List String))) : ℕ :=
  (cand.dedup.map (fun g => min (cand.count g) (maxRefCount refsNgrams g))).sum

/-- Python `min(ref_lens, key=lambda rl: (abs(rl - c_len), rl))` key order. -/
def effKeyLt (cLen a b : ℕ) : Prop :=
  ((a : ℤ) - cLen).natAbs < ((b : ℤ) - cLen).natAbs ∨
    (((a : ℤ) - cLen).natAbs = ((b : ℤ) - cLen).natAbs ∧ a < b)

instance (cLen a b : ℕ) : Decidable (effKeyLt cLen a b) := by
  unfold effKeyLt; infer_instance

/-- `_effective_ref_len`: the reference length with minimal key
`(abs(rl - c_len), rl)`; Python `min` keeps the first element on ties and
raises on an empty list (hence `Option`). -/
def effectiveRefLen (cLen : ℕ) : List ℕ → Option ℕ
  | [] => none
  | r :: rs => some (rs.foldl (fun best rl => if effKeyLt cLen rl best then rl else best) r)

/-- The smoothed-precision loop of `bleu` (lines 159-169): for each n-gram
order the modified precision `overlap / denom` with `denom = max(1, #cand
n-grams)`, substituting the Chen & Cherry method-1 value
`1/(denom * 2^k)` when smoothing is on and the precision is exactly 0; `k`
starts at 1 and increments on every smoothed zero. -/
def bleuDenom (cToks : List String) (n : ℕ) : ℕ :=
  max 1 (ngrams cToks n).length

def precisionsGo (cToks : List String) (refsTok : List (List String))
    (smooth : Bool) : List ℕ → ℕ → List ℚ
  | [], _ => []
  | n :: ns, k =>
    let candNgrams := ngrams cToks n
    let overlap := clipCountsAcrossRefs candNgrams (refsTok.map (fun rt => ngrams rt n))
    let denom : ℕ := bleuDenom cToks n
    let p : ℚ := if denom ≠ 0 then (overlap : ℚ) / (denom : ℚ) else 0
    if smooth ∧ p = 0 then
      (1 : ℚ) / ((denom : ℚ) * 2 ^ k) :: precisionsGo cToks refsTok smooth ns (k + 1)
    else p :: precisionsGo cToks refsTok smooth ns k

/-- The list of n-gram precisions for orders `1..max_n`. -/
def bleuPrecisions (cToks : List String) (refsTok : List (List String))
    (maxN : ℕ) (smooth : Bool) : List ℚ :=
  precisionsGo cToks refsTok smooth ((List.range maxN).map (· + 1)) 1

/-- `_brevity_penalty`. -/
noncomputable def brevityPenalty (cLen rLen : ℕ) : ℝ :=
  if cLen = 0 then 0
  else if rLen < cLen then 1
  else Real.exp (1 - (rLen : ℝ) / (cLen : ℝ))

/-- The weighted log-precision sum of `bleu` (lines 172-174): a precision that
is not positive contributes `w * (-1e9)`. -/
noncomputable def bleuLogSum (weights precisions : List ℚ) : ℝ :=
  ((weights.zip precisions).map
    (fun wp => (wp.1 : ℝ) * (if 0 < wp.2 then Real.log (wp.2 : ℝ) else -1e9))).sum

/-- Geometric mean with the `-1e8` underflow cutoff (line 175). -/
noncomputable def bleuGeoMean (logSum : ℝ) : ℝ :=
  if -1e8 < logSum then Real.exp logSum else 0

structure BleuResult where
  score : ℝ
  by_n : List ℚ
  bp : ℝ

/-- `bleu`: multi-reference BLEU with uniform default weights `1/max_n`.
An empty candidate token list short-circuits to zeros before the reference
lengths are inspected; otherwise Python's `min` over an empty reference list
raises, modelled by `none`. -/
noncomputable def bleu (candidate : String) (references : List String)
    (maxN : ℕ := 4) (smooth : Bool := true) : Option BleuResult :=
  let cToks := tokenize candidate
  if cToks = [] then
    some { score := 0, by_n := List.replicate maxN (0 : ℚ), bp := 0 }
  else
    let refsTok := references.map tokenize
    let refLens := refsTok.map List.length
    let weights : List ℚ := List.replicate maxN (1 / (maxN : ℚ))
    (effectiveRefLen cToks.length refLens).map (fun effRLen =>
      let bp := brevityPenalty cToks.length effRLen
      let precisions := bleuPrecisions cToks refsTok maxN smooth
      let geo := bleuGeoMean (bleuLogSum weights precisions)
      { score := bp * geo, by_n := precisions, bp := bp })

/-! ### `score_texts` (`text_metrics.py` lines 265-326) -/

structure ScoreTextsResult where
  BLEU : ℝ
  BLEU_by_n : List ℚ
  BLEU_BP : ℝ
  ROUGE_L : ℚ
  ROUGE_L_precision : ℚ
  ROUGE_L_recall : ℚ
  ROUGE_L_lcs : ℕ
  SQuAD_EM : ℚ
  SQuAD_token_F1 : ℚ
  ContentF1 : ℚ
  ContentF1_precision : ℚ
  ContentF1_recall : ℚ
  Aggregate : ℝ

/-- `score_texts`: all metrics plus the weighted aggregate, default weights
`(0.30, 0.40, 0.20, 0.10)` for `(BLEU, ROUGE_L, ContentF1, EM)`. -/
noncomputable def score_texts (candidate : String) (references : List String)
    (maxN : ℕ := 4) (smooth : Bool := true)
    (aggregateWeights : ℚ × ℚ × ℚ × ℚ := (3/10, 2/5, 1/5, 1/10)) :
    Option ScoreTextsResult :=
  (bleu candidate references maxN smooth).map (fun b =>
    let r := rouge_l candidate references
    let em := squad_em candidate references
    let sf1 := squad_token_f1 candidate references
    let cf := content_f1 candidate references
    let (wBleu, wRouge, wCf1, wEm) := aggregateWeights
    { BLEU := b.score, BLEU_by_n := b.by_n, BLEU_BP := b.bp
      ROUGE_L := r.f1, ROUGE_L_precision := r.precision
      ROUGE_L_recall := r.«recall», ROUGE_L_lcs := r.lcs
      SQuAD_EM := em, SQuAD_token_F1 := sf1
      ContentF1 := cf.f1, ContentF1_precision := cf.precision
      ContentF1_recall := cf.«recall»
      Aggregate := (wBleu : ℝ) * b.score + (wRouge : ℝ) * (r.f1 : ℝ)
        + (wCf1 : ℝ) * (cf.f1 : ℝ) + (wEm : ℝ) * (em : ℝ) })

/-! ### LLM-judge score model (`metrics/rag_evaluator.py`) -/

/-- The `Score` enum: ordinal labels bad/average/good/excellent. -/
inductive Score where
  | bad
  | average
  | good
  | excellent
deriving DecidableEq, Repr

/-- `score_to_numeric`: bad ↦ 0, average ↦ 1, good ↦ 2, excellent ↦ 3. -/
def score_to_numeric : Score → ℚ
  | .bad => 0
  | .average => 1
  | .good => 2
  | .excellent => 3

structure ContextRelevance where
  explanation : String
  score : Score
  per_context_scores : List ℚ
deriving DecidableEq, Repr

structure Groundedness where
  explanation : String
  score : Score
  supported_claims : ℤ
  total_claims : ℤ
deriving DecidableEq, Repr

structure AnswerRelevance where
  explanation : String
  score : Score
deriving DecidableEq, Repr

/-- `RAGEvaluation`: the structured judge response.  `overall_score` is a
field of the response model, filled by the external judge; the schema only
describes it as an overall score from 0-3. -/
structure RAGEvaluation where
  context_relevance : ContextRelevance
  groundedness : Groundedness
  answer_relevance : AnswerRelevance
  overall_score : ℚ
deriving DecidableEq, Repr

/-- `calculate_overall_score`: the arithmetic mean (`np.mean`) of the three
numeric dimension scores. -/
def calculate_overall_score (evaluation : RAGEvaluation) : ℚ :=
  (score_to_numeric evaluation.context_relevance.score
    + score_to_numeric evaluation.groundedness.score
    + score_to_numeric evaluation.answer_relevance.score) / 3

/-- The numeric scores dictionary built by
`RAGEvalService.calculate_llm_judged_metrics` (rag_eval_service.py lines
268-273) from a judge evaluation. -/
structure JudgedScores where
  answer_relevance : ℚ
  context_relevance : ℚ
  groundedness : ℚ
  llm_judged_overall : ℚ
deriving DecidableEq, Repr

/-- `calculate_llm_judged_metrics`, scores part: maps the three ordinal
labels with `score_to_numeric` and copies the judge-reported
`evaluation.overall_score` into `llm_judged_overall`. -/
def calcLlmJudgedScores (evaluation : RAGEvaluation) : JudgedScores :=
  { answer_relevance := score_to_numeric evaluation.answer_relevance.score
    context_relevance := score_to_numeric evaluation.context_relevance.score
    groundedness := score_to_numeric evaluation.groundedness.score
    llm_judged_overall := evaluation.overall_score }

/-! ### Retry transport (`llm/openai_llm.py` lines 21-72; the transport in
`llm/openai_embeddings.py` lines 17-68 is textually identical). -/

/-- Outcome of one underlying attempt: an HTTP response with a status code, a
connect/read-timeout-class exception (`ConnectTimeout`, `ReadTimeout`,
`ConnectError` are all handled by the same branch), or any other exception. -/
inductive AttemptOutcome where
  | resp (status : ℕ)
  | transientErr
  | fatalErr
deriving DecidableEq, Repr

/-- Result of `handle_async_request`: a returned response or a propagated
exception. -/
inductive TransportResult where
  | returned (status : ℕ)
  | raisedTransient
  | raisedFatal
deriving DecidableEq, Repr

/-- `BACKOFF_TIMES = [5.0, 20.0, 70.0]`. -/
def BACKOFF_TIMES : List ℚ := [5, 20, 70]

/-- `max_retries = 3` (so up to 4 attempts in `range(max_retries + 1)`). -/
def maxRetries : ℕ := 3

/-- The retry loop of `handle_async_request`, from attempt number `attempt`;
the second component records the performed sleeps in order.  A rate-limit
(429) or server-error (≥500) status and a transient exception are retried
with `BACKOFF_TIMES[attempt]` while `attempt < max_retries`; any other
response is returned and any other exception is raised. -/
def handleAsyncRequestFrom (oracle : ℕ → AttemptOutcome) (attempt : ℕ) :
    TransportResult × List ℚ :=
  match oracle attempt with
  | .resp s =>
    if h : (s = 429 ∨ 500 ≤ s) ∧ attempt < maxRetries then
      let rest := handleAsyncRequestFrom oracle (attempt + 1)
      (rest.1, BACKOFF_TIMES.getD attempt 0 :: rest.2)
    else (.returned s, [])
  | .transientErr =>
    if h : attempt < maxRetries then
      let rest := handleAsyncRequestFrom oracle (attempt + 1)
      (rest.1, BACKOFF_TIMES.getD attempt 0 :: rest.2)
    else (.raisedTransient, [])
  | .fatalErr => (.raisedFatal, [])
termination_by maxRetries + 1 - attempt
decreasing_by
  · simp only [maxRetries] at *; omega
  · simp only [maxRetries] at *; omega

/-- `handle_async_request` (the loop starts at attempt 0). -/
def handleAsyncRequest (oracle : ℕ → AttemptOutcome) : TransportResult × List ℚ :=
  handleAsyncRequestFrom oracle 0

/-! ### Persistence model (`db/db.py`, `services/rag_eval_service.py`
lines 293-390)

`DB.execute` wraps each single SQL statement in its own
commit-or-rollback context (`db.py` lines 233-250): a statement either
commits entirely or leaves the database unchanged and raises.
`save_evaluation_to_db` issues its DELETE, its INSERT INTO evals, and one
INSERT INTO eval_chunks per chunk id as separate `DB.execute` calls.  The
model below numbers those statements 0, 1, 2... and takes a failure
predicate saying which statement raises; a raising statement has no effect
and aborts the remaining statements. -/

/-- The lexical-metric columns of an `evals` row (`bleu` and
`lexical_aggregate` are real-valued because BLEU involves `math.exp`). -/
structure LexicalMetrics where
  bleu : ℝ
  rouge_l : ℚ
  rouge_l_precision : ℚ
  rouge_l_recall : ℚ
  squad_em : ℚ
  squad_token_f1 : ℚ
  content_f1 : ℚ
  lexical_aggregate : ℝ

/-- The reasoning columns of an `evals` row. -/
structure JudgedReasoning where
  answer_relevance : Option String
  context_relevance : Option String
  groundedness : Option String
  context_relevance_per_context : Option String
  groundedness_supported_claims : Option ℤ
  groundedness_total_claims : Option ℤ
deriving DecidableEq, Repr

/-- A row of the `evals` table. -/
structure EvalRow where
  id : String
  test_run_id : String
  qa_pair_id : String
  answer : String
  lexical : LexicalMetrics
  judged : JudgedScores
  reasoning : JudgedReasoning

/-- A row of the `eval_chunks` link table. -/
structure EvalChunkRow where
  eval_id : String
  chunk_id : String
deriving DecidableEq, Repr

/-- The database state relevant to evaluations. -/
structure DbState where
  evals : List EvalRow
  evalChunks : List EvalChunkRow

/-- Statement 0 of `save_evaluation_to_db`:
`DELETE FROM evals WHERE test_run_id = ? AND qa_pair_id = ?`; deleting an
`evals` row cascade-deletes its `eval_chunks` rows (schema
`ON DELETE CASCADE`). -/
def deleteEvals (testRunId qaPairId : String) (st : DbState) : DbState :=
  let deletedIds := (st.evals.filter
    (fun e => e.test_run_id = testRunId ∧ e.qa_pair_id = qaPairId)).map EvalRow.id
  { evals := st.evals.filter
      (fun e => ¬(e.test_run_id = testRunId ∧ e.qa_pair_id = qaPairId))
    evalChunks := st.evalChunks.filter (fun c => c.eval_id ∉ deletedIds) }

/-- Statement 1: `INSERT INTO evals (...) VALUES (...)`. -/
def insertEval (row : EvalRow) (st : DbState) : DbState :=
  { st with evals := st.evals ++ [row] }

/-- Statements 2..: `INSERT INTO eval_chunks (eval_id, chunk_id) VALUES (?, ?)`. -/
def insertEvalChunk (evalId chunkId : String) (st : DbState) : DbState :=
  { st with evalChunks := st.evalChunks ++ [⟨evalId, chunkId⟩] }

/-- The chunk-link loop (statements `2, 3, ...`): insert one row per chunk id
until a statement fails; a failure returns the state committed so far and
surfaces the error (`none`). -/
def insertChunksFrom (failsAt : ℕ → Bool) (evalId : String) (stmt : ℕ) :
    List String → DbState → DbState × Bool
  | [], st => (st, true)
  | chunkId :: rest, st =>
    if failsAt stmt then (st, false)
    else insertChunksFrom failsAt evalId (stmt + 1) rest (insertEvalChunk evalId chunkId st)

/-- `save_evaluation_to_db`: DELETE any rows for `(test_run_id, qa_pair_id)`,
INSERT the fresh row under a freshly generated id, INSERT one link row per
chunk id — each statement in its own transaction.  Returns the resulting
database state and `some eval_id` on success or `none` when some statement
raised (the exception is re-raised to the caller). -/
def save_evaluation_to_db (failsAt : ℕ → Bool) (testRunId qaPairId : String)
    (generatedAnswer : String) (lexicalMetrics : LexicalMetrics)
    (llmJudgedMetrics : JudgedScores) (llmJudgedReasoning : JudgedReasoning)
    (chunkIds : List String) (newEvalId : String) (st : DbState) :
    DbState × Option String :=
  if failsAt 0 then (st, none)
  else
    let st1 := deleteEvals testRunId qaPairId st
    if failsAt 1 then (st1, none)
    else
      let row : EvalRow :=
        { id := newEvalId, test_run_id := testRunId, qa_pair_id := qaPairId
          answer := generatedAnswer, lexical := lexicalMetrics
          judged := llmJudgedMetrics, reasoning := llmJudgedReasoning }
      let st2 := insertEval row st1
      match insertChunksFrom failsAt newEvalId 2 chunkIds st2 with
      | (st3, true) => (st3, some newEvalId)
      | (st3, false) => (st3, none)

/-- At most one `evals` row per `(test_run_id, qa_pair_id)`. -/
def DbInvariant (st : DbState) : Prop :=
  st.evals.Pairwise
    (fun a b => ¬(a.test_run_id = b.test_run_id ∧ a.qa_pair_id = b.qa_pair_id))

instance (st : DbState) : Decidable (DbInvariant st) := by
  unfold DbInvariant; infer_instance

/-- Number of `evals` rows for a key. -/
def evalCount (testRunId qaPairId : String) (st : DbState) : ℕ :=
  st.evals.countP (fun e => e.test_run_id = testRunId ∧ e.qa_pair_id = qaPairId)

/-! ### Orchestrator (`services/rag_eval_service.py` lines 392-560)

`generate_and_evaluate` is modelled per evaluation request; the external
collaborators (vector search, generation model, judge model) are oracles:
the retrieved contexts, the generated answer and the judge evaluation are
parameters, as is the statement-failure predicate of the persistence step. -/

structure RetrievedContext where
  content : String
  chunk_id : String
  distance : ℚ
deriving DecidableEq, Repr

/-- A progress event `{stage, status, error?, data?}` (the model keeps the
fields the claims mention). -/
structure ProgressEvent where
  stage : String
  status : String
  error : Option String := none
  contextCount : Option ℕ := none
deriving DecidableEq, Repr

structure PipelineResult where
  events : List ProgressEvent
  outcome : Except String String   -- error message, or eval id on success
  db : DbState
  generationCalled : Bool

/-- The lexical-metrics dictionary built by `calculate_lexical_metrics` from
`score_texts(generated, reference)` (rag_eval_service.py lines 201-233). -/
noncomputable def calculate_lexical_metrics (generatedAnswer referenceAnswer : String) :
    Option LexicalMetrics :=
  (score_texts generatedAnswer [referenceAnswer]).map (fun s =>
    { bleu := s.BLEU, rouge_l := s.ROUGE_L, rouge_l_precision := s.ROUGE_L_precision
      rouge_l_recall := s.ROUGE_L_recall, squad_em := s.SQuAD_EM
      squad_token_f1 := s.SQuAD_token_F1, content_f1 := s.ContentF1
      lexical_aggregate := s.Aggregate })

/-- `generate_and_evaluate`: retrieve → generate → lexical metrics → judge
metrics → persist, emitting progress events, with the zero-context guard
(lines 456-464): an empty retrieval result emits a `failed`
`contexts_retrieved` event naming the collection and raises `ValueError`
before the generation model is ever called; the outer handler then emits the
terminal `failed` event.  The database is only touched by the persist step. -/
noncomputable def generate_and_evaluate (testRunId qaPairId _query referenceAnswer
    collectionName : String) (contexts : List RetrievedContext)
    (generatedAnswer : String) (judge : RAGEvaluation)
    (failsAt : ℕ → Bool) (newEvalId : String) (st : DbState) : PipelineResult :=
  let started : ProgressEvent := { stage := "started", status := "running" }
  let retrieved : ProgressEvent :=
    { stage := "contexts_retrieved", status := "running"
      contextCount := some contexts.length }
  if contexts = [] then
    let msg := "No contexts found in collection " ++ collectionName
    { events := [started, retrieved,
        { stage := "contexts_retrieved", status := "failed", error := some msg },
        { stage := "failed", status := "failed", error := some msg }]
      outcome := .error msg
      db := st
      generationCalled := false }
  else
    let answered : ProgressEvent := { stage := "answer_generated", status := "running" }
    match calculate_lexical_metrics generatedAnswer referenceAnswer with
    | none =>
      let msg := "lexical metrics error"
      { events := [started, retrieved, answered,
          { stage := "failed", status := "failed", error := some msg }]
        outcome := .error msg, db := st, generationCalled := true }
    | some lexicalMetrics =>
      let lexEvent : ProgressEvent :=
        { stage := "lexical_metrics_calculated", status := "running" }
      let judgedScores := calcLlmJudgedScores judge
      let judgeEvent : ProgressEvent :=
        { stage := "llm_metrics_calculated", status := "running" }
      let reasoning : JudgedReasoning :=
        { answer_relevance := some judge.answer_relevance.explanation
          context_relevance := some judge.context_relevance.explanation
          groundedness := some judge.groundedness.explanation
          context_relevance_per_context := some "[]"
          groundedness_supported_claims := some judge.groundedness.supported_claims
          groundedness_total_claims := some judge.groundedness.total_claims }
      match save_evaluation_to_db failsAt testRunId qaPairId generatedAnswer
        lexicalMetrics judgedScores reasoning (contexts.map RetrievedContext.chunk_id)
        newEvalId st with
      | (st', some evalId) =>
        { events := [started, retrieved, answered, lexEvent, judgeEvent,
            { stage := "saved", status := "completed" }]
          outcome := .ok evalId, db := st', generationCalled := true }
      | (st', none) =>
        { events := [started, retrieved, answered, lexEvent, judgeEvent,
            { stage := "failed", status := "failed", error := some "db error" }]
          outcome := .error "db error", db := st', generationCalled := true }

/-! ## Theorems -/

/-! ### Retry transport lemmas -/

/-- An attempt outcome that the transport retries: a 429 or ≥500 status, or a
connect/read-timeout-class exception. -/
def retryable : AttemptOutcome → Bool
  | .resp s => s = 429 ∨ 500 ≤ s
  | .transientErr => true
  | .fatalErr => false

theorem handleFrom_resp_retry (oracle : ℕ → AttemptOutcome) (a s : ℕ)
    (h1 : oracle a = .resp s) (h2 : s = 429 ∨ 500 ≤ s) (h3 : a < maxRetries) :
    handleAsyncRequestFrom oracle a =
      ((handleAsyncRequestFrom oracle (a + 1)).1,
        BACKOFF_TIMES.getD a 0 :: (handleAsyncRequestFrom oracle (a + 1)).2) := by
  rw [handleAsyncRequestFrom]
  simp [h1, h2, h3]

theorem handleFrom_resp_return (oracle : ℕ → AttemptOutcome) (a s : ℕ)
    (h1 : oracle a = .resp s) (h2 : ¬((s = 429 ∨ 500 ≤ s) ∧ a < maxRetries)) :
    handleAsyncRequestFrom oracle a = (.returned s, []) := by
  rw [handleAsyncRequestFrom]
  simp only [h1]
  rw [dif_neg h2]

theorem handleFrom_transient_retry (oracle : ℕ → AttemptOutcome) (a : ℕ)
    (h1 : oracle a = .transientErr) (h3 : a < maxRetries) :
    handleAsyncRequestFrom oracle a =
      ((handleAsyncRequestFrom oracle (a + 1)).1,
        BACKOFF_TIMES.getD a 0 :: (handleAsyncRequestFrom oracle (a + 1)).2) := by
  rw [handleAsyncRequestFrom]
  simp [h1, h3]

theorem handleFrom_transient_raise (oracle : ℕ → AttemptOutcome) (a : ℕ)
    (h1 : oracle a = .transientErr) (h3 : ¬(a < maxRetries)) :
    handleAsyncRequestFrom oracle a = (.raisedTransient, []) := by
  rw [handleAsyncRequestFrom]
  simp [h1, h3]

/-- Success after `k` retryable 429 responses, starting at attempt `a`:
the transport returns the successful response and the sleeps are the
schedule entries from position `a`, `k` of them. -/
theorem handleFrom_success (oracle : ℕ → AttemptOutcome) (s : ℕ)
    (hs : ¬(s = 429 ∨ 500 ≤ s)) :
    ∀ (k a : ℕ), a + k ≤ maxRetries →
      (∀ i, a ≤ i → i < a + k → oracle i = .resp 429) →
      oracle (a + k) = .resp s →
      handleAsyncRequestFrom oracle a = (.returned s, (BACKOFF_TIMES.drop a).take k) := by
  intro k
  induction k with
  | zero =>
    intro a _ _ hsucc
    simp only [Nat.add_zero] at hsucc
    rw [handleFrom_resp_return oracle a s hsucc (by tauto)]
    simp
  | succ k ih =>
    intro a ha hfail hsucc
    have h429 : oracle a = .resp 429 := hfail a le_rfl (by omega)
    have haLt : a < maxRetries := by omega
    rw [handleFrom_resp_retry oracle a 429 h429 (Or.inl rfl) haLt]
    have hrec := ih (a + 1) (by omega) (fun i h1 h2 => hfail i (by omega) (by omega))
      (by rw [show a + 1 + k = a + (k + 1) by omega]; exact hsucc)
    rw [hrec]
    have hlen : a < BACKOFF_TIMES.length := by
      simp only [BACKOFF_TIMES, List.length_cons, List.length_nil]
      simp only [maxRetries] at haLt; omega
    have hD : BACKOFF_TIMES.getD a 0 = BACKOFF_TIMES[a] := by
      simp [List.getD_eq_getElem?_getD, List.getElem?_eq_getElem hlen]
    have htake : List.take (k + 1) (List.drop a BACKOFF_TIMES) =
        BACKOFF_TIMES[a] :: List.take k (List.drop (a + 1) BACKOFF_TIMES) := by
      rw [List.drop_eq_getElem_cons hlen, List.take_succ_cons]
    rw [hD, htake]

/-- Exhaustion: when every attempt from `a` through `max_retries` is
retryable, the transport performs every remaining attempt, sleeps the whole
remaining schedule, and propagates the outcome of the last attempt. -/
theorem handleFrom_exhaust (oracle : ℕ → AttemptOutcome)
    (hall : ∀ i, i ≤ maxRetries → retryable (oracle i) = true) :
    ∀ (k a : ℕ), a + k = maxRetries →
      (handleAsyncRequestFrom oracle a).2 = BACKOFF_TIMES.drop a ∧
      (∀ s, oracle maxRetries = .resp s →
        (handleAsyncRequestFrom oracle a).1 = .returned s) ∧
      (oracle maxRetries = .transientErr →
        (handleAsyncRequestFrom oracle a).1 = .raisedTransient) := by
  intro k
  induction k with
  | zero =>
    intro a ha
    simp only [Nat.add_zero] at ha
    subst ha
    cases hox : oracle maxRetries with
    | resp s =>
      rw [handleFrom_resp_return oracle maxRetries s hox (by simp)]
      refine ⟨by simp [BACKOFF_TIMES, maxRetries], fun t ht => ?_, fun ht => ?_⟩
      · cases ht; rfl
      · cases ht
    | transientErr =>
      rw [handleFrom_transient_raise oracle maxRetries hox (by simp)]
      refine ⟨by simp [BACKOFF_TIMES, maxRetries], fun t ht => ?_, fun _ => rfl⟩
      cases ht
    | fatalErr =>
      have := hall maxRetries le_rfl
      rw [hox] at this
      simp [retryable] at this
  | succ k ih =>
    intro a ha
    have haLt : a < maxRetries := by omega
    have hrest := ih (a + 1) (by omega)
    have hstep : handleAsyncRequestFrom oracle a =
        ((handleAsyncRequestFrom oracle (a + 1)).1,
          BACKOFF_TIMES.getD a 0 :: (handleAsyncRequestFrom oracle (a + 1)).2) := by
      cases hox : oracle a with
      | resp s =>
        have := hall a (by omega)
        rw [hox] at this
        simp only [retryable, decide_eq_true_eq] at this
        exact handleFrom_resp_retry oracle a s hox this haLt
      | transientErr => exact handleFrom_transient_retry oracle a hox haLt
      | fatalErr =>
        have := hall a (by omega)
        rw [hox] at this
        simp [retryable] at this
    rw [hstep]
    have hlen : a < BACKOFF_TIMES.length := by
      simp only [BACKOFF_TIMES, List.length_cons, List.length_nil]
      simp only [maxRetries] at haLt; omega
    have hD : BACKOFF_TIMES.getD a 0 = BACKOFF_TIMES[a] := by
      simp [List.getD_eq_getElem?_getD, List.getElem?_eq_getElem hlen]
    refine ⟨?_, fun s hs => (hrest.2.1 s hs : _), fun hs => (hrest.2.2 hs : _)⟩
    rw [hD, hrest.1, List.drop_eq_getElem_cons hlen]

/-- C7: for every N between 1 and the configured maximum attempt count
(`max_retries + 1 = 4`): if the wrapped call returns a rate-limit status on
each of its first N−1 attempts and a non-retryable (successful) response on
attempt N, the transport returns that response and sleeps exactly N−1 times,
taking the backoff durations in increasing order from the front of the
configured schedule `[5, 20, 70]`; and if every attempt is retryable, the
transport performs all configured attempts, sleeps through the whole
schedule, and then returns or raises the final attempt's outcome
unchanged. -/
theorem retry_transport_spec :
    (∀ (oracle : ℕ → AttemptOutcome) (N s : ℕ), 1 ≤ N → N ≤ maxRetries + 1 →
      (∀ i, i < N - 1 → oracle i = .resp 429) →
      oracle (N - 1) = .resp s → ¬(s = 429 ∨ 500 ≤ s) →
      handleAsyncRequest oracle = (.returned s, BACKOFF_TIMES.take (N - 1)) ∧
        (BACKOFF_TIMES.take (N - 1)).length = N - 1 ∧
        (BACKOFF_TIMES.take (N - 1)).Chain' (· < ·)) ∧
    (∀ oracle : ℕ → AttemptOutcome,
      (∀ i, i ≤ maxRetries → retryable (oracle i) = true) →
      (handleAsyncRequest oracle).2 = BACKOFF_TIMES ∧
        (∀ s, oracle maxRetries = .resp s →
          (handleAsyncRequest oracle).1 = .returned s) ∧
        (oracle maxRetries = .transientErr →
          (handleAsyncRequest oracle).1 = .raisedTransient)) := by
  have hfacts : ∀ m : ℕ, m ≤ 3 → (BACKOFF_TIMES.take m).length = m ∧
      (BACKOFF_TIMES.take m).Chain' (· < ·) := by
    intro m hm
    interval_cases m <;> norm_num [BACKOFF_TIMES, List.chain'_cons]
  constructor
  · intro oracle N s h1 h2 hfail hsucc hs
    have hmain := handleFrom_success oracle s hs (N - 1) 0
      (by simp only [maxRetries] at *; omega)
      (fun i hi hlt => hfail i (by omega)) (by simpa using hsucc)
    have hN3 : N - 1 ≤ 3 := by simp only [maxRetries] at h2; omega
    exact ⟨by simpa using hmain, (hfacts _ hN3).1, (hfacts _ hN3).2⟩
  · intro oracle hall
    have := handleFrom_exhaust oracle hall maxRetries 0 (by simp)
    simpa [handleAsyncRequest] using this

/-- Oracle that rate-limits the first attempt and succeeds on the second. -/
def oracleRetryOnce : ℕ → AttemptOutcome :=
  fun i => if i = 0 then .resp 429 else .resp 200

/-- Oracle that rate-limits every attempt. -/
def oracleAlways429 : ℕ → AttemptOutcome := fun _ => .resp 429

/-- C7 witness: with one 429 then a success, the transport returns the 200
response after exactly one 5-second sleep; with 429 on every attempt it
sleeps the whole schedule and returns the final 429 response. -/
theorem retry_transport_spec_witness :
    handleAsyncRequest oracleRetryOnce = (.returned 200, [5]) ∧
    (handleAsyncRequest oracleAlways429).2 = BACKOFF_TIMES ∧
    (handleAsyncRequest oracleAlways429).1 = .returned 429 := by
  refine ⟨?_, ?_, ?_⟩
  · have h := retry_transport_spec.1 oracleRetryOnce 2 200 (by decide) (by decide)
      (fun i hi => by interval_cases i; rfl) rfl (by decide)
    simpa [BACKOFF_TIMES] using h.1
  · exact (retry_transport_spec.2 oracleAlways429 (fun i _ => rfl)).1
  · exact (retry_transport_spec.2 oracleAlways429 (fun i _ => rfl)).2.1 429 rfl

/-! ### C3: judge overall score -/

/-- A structurally valid judge response whose self-reported overall score is
not the mean of its three dimension scores (the response schema does not
constrain `overall_score` beyond being a 0-3 float). -/
def allBadJudgeEval : RAGEvaluation :=
  { context_relevance := { explanation := "", score := .bad, per_context_scores := [] }
    groundedness := { explanation := "", score := .bad, supported_claims := 0
                      total_claims := 0 }
    answer_relevance := { explanation := "", score := .bad }
    overall_score := 3 }

/-- C3 counterexample: for the judge response `allBadJudgeEval` (all three
dimensions `bad`, judge-reported overall 3), the `llm_judged_overall` value
recorded by `calculate_llm_judged_metrics` is 3, not the arithmetic mean 0 of
the three mapped dimension scores. -/
theorem llm_judged_overall_not_mean :
    (calcLlmJudgedScores allBadJudgeEval).llm_judged_overall = 3 ∧
    (score_to_numeric allBadJudgeEval.answer_relevance.score
      + score_to_numeric allBadJudgeEval.context_relevance.score
      + score_to_numeric allBadJudgeEval.groundedness.score) / 3 = 0 ∧
    (calcLlmJudgedScores allBadJudgeEval).llm_judged_overall ≠
      (score_to_numeric allBadJudgeEval.answer_relevance.score
        + score_to_numeric allBadJudgeEval.context_relevance.score
        + score_to_numeric allBadJudgeEval.groundedness.score) / 3 := by
  refine ⟨rfl, by norm_num [score_to_numeric, allBadJudgeEval], ?_⟩
  norm_num [score_to_numeric, allBadJudgeEval, calcLlmJudgedScores]

/-- C3 (amended): the pipeline records the judge-reported `overall_score`
field verbatim as `llm_judged_overall`; the helper `calculate_overall_score`
computes the arithmetic mean of the three mapped dimension scores but is not
invoked on the recording path, so the recorded overall equals the mean only
if the judge model itself reports the mean. -/
theorem llm_judged_overall_is_judge_reported (e : RAGEvaluation) :
    (calcLlmJudgedScores e).llm_judged_overall = e.overall_score ∧
    calculate_overall_score e =
      ((calcLlmJudgedScores e).answer_relevance
        + (calcLlmJudgedScores e).context_relevance
        + (calcLlmJudgedScores e).groundedness) / 3 := by
  refine ⟨rfl, ?_⟩
  simp only [calculate_overall_score, calcLlmJudgedScores]
  ring

/-! ### C10: SQuAD EM compares normalized forms -/

/-- C10: `squad_em` returns 1.0 whenever the SQuAD-normalized candidate
equals the normalized form of some reference — including when both normalize
to the empty string. -/
theorem squad_em_eq_one_of_normalized_eq (candidate r : String)
    (references : List String) (hmem : r ∈ references)
    (hnorm : normalizeForEm candidate = normalizeForEm r) :
    squad_em candidate references = 1 := by
  unfold squad_em
  rw [if_pos]
  rw [List.any_eq_true]
  exact ⟨r, hmem, by simp [hnorm]⟩

/-- C10 witness: a candidate made only of articles, punctuation and
whitespace normalizes to the empty string and scores exact-match 1.0 against
a reference that also normalizes to empty. -/
theorem squad_em_eq_one_of_normalized_eq_witness :
    ("??" ∈ ["some words", "??"]) ∧
    normalizeForEm "the, a... an!!" = normalizeForEm "??" ∧
    normalizeForEm "the, a... an!!" = "" ∧
    squad_em "the, a... an!!" ["some words", "??"] = 1 := by
  refine ⟨by decide, by decide, by decide, ?_⟩
  exact squad_em_eq_one_of_normalized_eq "the, a... an!!" "??"
    ["some words", "??"] (by decide) (by decide)

/-! ### C1 / C2: persistence -/

theorem insertChunksFrom_evals (failsAt : ℕ → Bool) (evalId : String) :
    ∀ (chunkIds : List String) (stmt : ℕ) (st : DbState),
      (insertChunksFrom failsAt evalId stmt chunkIds st).1.evals = st.evals := by
  intro chunkIds
  induction chunkIds with
  | nil => intro stmt st; rfl
  | cons c rest ih =>
    intro stmt st
    unfold insertChunksFrom
    split
    · rfl
    · rw [ih]; rfl

/-- Rows surviving `deleteEvals` do not match the key. -/
theorem deleteEvals_no_key (trid qid : String) (st : DbState) :
    ∀ e ∈ (deleteEvals trid qid st).evals,
      ¬(e.test_run_id = trid ∧ e.qa_pair_id = qid) := by
  intro e he
  simp only [deleteEvals, List.mem_filter, decide_eq_true_eq] at he
  exact he.2

theorem deleteEvals_invariant (trid qid : String) (st : DbState)
    (h : DbInvariant st) : DbInvariant (deleteEvals trid qid st) := by
  exact h.sublist (List.filter_sublist _)

theorem evalCount_deleteEvals (trid qid : String) (st : DbState) :
    evalCount trid qid (deleteEvals trid qid st) = 0 := by
  rw [evalCount, List.countP_eq_zero]
  intro e he
  simp only [decide_eq_true_eq]
  exact deleteEvals_no_key trid qid st e he

/-- The `evals` list after the DELETE and the INSERT. -/
theorem insertEval_deleteEvals_invariant (trid qid : String) (row : EvalRow)
    (hrow : row.test_run_id = trid ∧ row.qa_pair_id = qid) (st : DbState)
    (h : DbInvariant st) :
    DbInvariant (insertEval row (deleteEvals trid qid st)) ∧
    evalCount trid qid (insertEval row (deleteEvals trid qid st)) = 1 := by
  constructor
  · simp only [DbInvariant, insertEval, List.pairwise_append, List.pairwise_cons]
    refine ⟨deleteEvals_invariant trid qid st h, ⟨by simp, by simp⟩, ?_⟩
    intro a ha b hb
    simp only [List.mem_singleton] at hb
    subst hb
    intro hc
    exact deleteEvals_no_key trid qid st a ha ⟨hc.1.trans hrow.1, hc.2.trans hrow.2⟩
  · simp only [evalCount, insertEval, List.countP_append]
    have h0 := evalCount_deleteEvals trid qid st
    rw [evalCount] at h0
    rw [h0]
    simp [List.countP_cons, hrow.1, hrow.2]

/-- C2: at most one evaluation record per `(test_run_id, qa_pair_id)` at any
time: if the invariant holds before `save_evaluation_to_db`, it holds after
the DELETE, after every later statement (hence in the final state regardless
of where a failure strikes), and a completed save leaves exactly one record
for the key — the freshly inserted one (overwrite, not append). -/
theorem save_overwrite_invariant (failsAt : ℕ → Bool) (trid qid ans : String)
    (lex : LexicalMetrics) (js : JudgedScores) (rs : JudgedReasoning)
    (chunkIds : List String) (newId : String) (st : DbState)
    (hinv : DbInvariant st) :
    DbInvariant (deleteEvals trid qid st) ∧
    DbInvariant
      (save_evaluation_to_db failsAt trid qid ans lex js rs chunkIds newId st).1 ∧
    ((save_evaluation_to_db failsAt trid qid ans lex js rs chunkIds newId st).2 =
        some newId →
      evalCount trid qid
        (save_evaluation_to_db failsAt trid qid ans lex js rs chunkIds newId st).1 = 1 ∧
      ∀ e ∈ (save_evaluation_to_db failsAt trid qid ans lex js rs chunkIds
          newId st).1.evals,
        e.test_run_id = trid → e.qa_pair_id = qid → e.id = newId) := by
  refine ⟨deleteEvals_invariant trid qid st hinv, ?_⟩
  set row : EvalRow :=
    { id := newId, test_run_id := trid, qa_pair_id := qid, answer := ans
      lexical := lex, judged := js, reasoning := rs } with hrowdef
  have hrow : row.test_run_id = trid ∧ row.qa_pair_id = qid := ⟨rfl, rfl⟩
  have hst2 := insertEval_deleteEvals_invariant trid qid row hrow st hinv
  have hmem : ∀ e ∈ (insertEval row (deleteEvals trid qid st)).evals,
      e.test_run_id = trid → e.qa_pair_id = qid → e.id = newId := by
    intro e he h1 h2
    simp only [insertEval, List.mem_append, List.mem_singleton] at he
    rcases he with he | he
    · exact absurd ⟨h1, h2⟩ (deleteEvals_no_key trid qid st e he)
    · rw [he]
  unfold save_evaluation_to_db
  split
  · exact ⟨hinv, by simp⟩
  · split
    · exact ⟨deleteEvals_invariant trid qid st hinv, by simp⟩
    · have hevals := insertChunksFrom_evals failsAt newId chunkIds 2
        (insertEval row (deleteEvals trid qid st))
      rcases hic : insertChunksFrom failsAt newId 2 chunkIds
          (insertEval row (deleteEvals trid qid st)) with ⟨st3, ok⟩
      have hst3 : st3.evals = (insertEval row (deleteEvals trid qid st)).evals := by
        rw [← hevals, hic]
      cases ok
      · simp only [hic]
        exact ⟨by rw [DbInvariant, hst3]; exact hst2.1, by simp⟩
      · simp only [hic]
        refine ⟨by rw [DbInvariant, hst3]; exact hst2.1, fun _ => ?_⟩
        constructor
        · rw [evalCount, hst3]
          exact hst2.2
        · intro e he
          rw [hst3] at he
          exact hmem e he

/-- C2 witness: saving into an empty database (no failures) leaves exactly
one record for the key. -/
theorem save_overwrite_invariant_witness :
    DbInvariant (⟨[], []⟩ : DbState) ∧
    evalCount "run-1" "qa-1"
      (save_evaluation_to_db (fun _ => false) "run-1" "qa-1" "ans"
        { bleu := 0, rouge_l := 0, rouge_l_precision := 0, rouge_l_recall := 0
          squad_em := 0, squad_token_f1 := 0, content_f1 := 0, lexical_aggregate := 0 }
        ⟨0, 0, 0, 0⟩ ⟨none, none, none, none, none, none⟩ ["chunk-1"] "new-eval"
        ⟨[], []⟩).1 = 1 := by
  have hinv : DbInvariant (⟨[], []⟩ : DbState) := List.Pairwise.nil
  refine ⟨hinv, ?_⟩
  have h := save_overwrite_invariant (fun _ => false) "run-1" "qa-1" "ans"
    { bleu := 0, rouge_l := 0, rouge_l_precision := 0, rouge_l_recall := 0
      squad_em := 0, squad_token_f1 := 0, content_f1 := 0, lexical_aggregate := 0 }
    ⟨0, 0, 0, 0⟩ ⟨none, none, none, none, none, none⟩ ["chunk-1"] "new-eval"
    ⟨[], []⟩ hinv
  exact (h.2.2 rfl).1

/-! ### C1: the overwrite is not one transaction -/

/-- All-zero metric values (the metric values are irrelevant to the
transactionality question). -/
noncomputable def zeroLexical : LexicalMetrics :=
  { bleu := 0, rouge_l := 0, rouge_l_precision := 0, rouge_l_recall := 0
    squad_em := 0, squad_token_f1 := 0, content_f1 := 0, lexical_aggregate := 0 }

def zeroScores : JudgedScores := ⟨0, 0, 0, 0⟩

def emptyReasoning : JudgedReasoning := ⟨none, none, none, none, none, none⟩

/-- A pre-existing evaluation record for `("run-1", "qa-1")`. -/
noncomputable def priorRow : EvalRow :=
  { id := "old-eval", test_run_id := "run-1", qa_pair_id := "qa-1"
    answer := "old answer", lexical := zeroLexical, judged := zeroScores
    reasoning := emptyReasoning }

noncomputable def priorDb : DbState :=
  { evals := [priorRow], evalChunks := [⟨"old-eval", "chunk-9"⟩] }

/-- The store fails on statement 1 (the INSERT INTO evals), after the DELETE
committed. -/
def failAtInsert : ℕ → Bool := fun i => i = 1

/-- C1 counterexample: with a pre-existing record for the key and a
store-level failure at the INSERT (after the DELETE), `save_evaluation_to_db`
surfaces the failure but the database is NOT left unchanged: the pre-existing
record is gone, because each statement commits in its own transaction
(`DB.execute`), so the DELETE is not rolled back. -/
theorem save_not_transactional :
    (save_evaluation_to_db failAtInsert "run-1" "qa-1" "new answer" zeroLexical
      zeroScores emptyReasoning ["chunk-9"] "new-eval" priorDb).2 = none ∧
    evalCount "run-1" "qa-1" priorDb = 1 ∧
    evalCount "run-1" "qa-1"
      (save_evaluation_to_db failAtInsert "run-1" "qa-1" "new answer" zeroLexical
        zeroScores emptyReasoning ["chunk-9"] "new-eval" priorDb).1 = 0 := by
  have hsave : save_evaluation_to_db failAtInsert "run-1" "qa-1" "new answer"
      zeroLexical zeroScores emptyReasoning ["chunk-9"] "new-eval" priorDb =
      (deleteEvals "run-1" "qa-1" priorDb, none) := by
    unfold save_evaluation_to_db
    rw [if_neg (by decide), if_pos (by decide)]
  refine ⟨by rw [hsave], ?_, ?_⟩
  · simp only [evalCount, priorDb, priorRow, List.countP_cons, List.countP_nil]
    decide
  · rw [hsave]
    exact evalCount_deleteEvals "run-1" "qa-1" priorDb

/-- C1 (amended): every statement of the overwrite runs in its own
transaction.  A failure of statement 0 (the DELETE) leaves the database
unchanged; a failure of statement 1 (the INSERT) surfaces the error but
leaves the DELETE committed, so the pre-existing record for the key is
already gone and no record for the key remains. -/
theorem save_statement_level_atomicity (failsAt : ℕ → Bool)
    (trid qid ans : String) (lex : LexicalMetrics) (js : JudgedScores)
    (rs : JudgedReasoning) (chunkIds : List String) (newId : String)
    (st : DbState) :
    (failsAt 0 = true →
      save_evaluation_to_db failsAt trid qid ans lex js rs chunkIds newId st =
        (st, none)) ∧
    (failsAt 0 = false → failsAt 1 = true →
      save_evaluation_to_db failsAt trid qid ans lex js rs chunkIds newId st =
        (deleteEvals trid qid st, none) ∧
      evalCount trid qid
        (save_evaluation_to_db failsAt trid qid ans lex js rs chunkIds
          newId st).1 = 0) := by
  constructor
  · intro h0
    unfold save_evaluation_to_db
    rw [if_pos h0]
  · intro h0 h1
    have hsave : save_evaluation_to_db failsAt trid qid ans lex js rs chunkIds
        newId st = (deleteEvals trid qid st, none) := by
      unfold save_evaluation_to_db
      rw [if_neg (by simp [h0]), if_pos h1]
    exact ⟨hsave, by rw [hsave]; exact evalCount_deleteEvals trid qid st⟩

/-- C1 amended-claim witness at concrete inputs: a DELETE-stage failure
leaves the prior database unchanged, and an INSERT-stage failure leaves the
key without any record. -/
theorem save_statement_level_atomicity_witness :
    save_evaluation_to_db (fun _ => true) "run-1" "qa-1" "new answer"
      zeroLexical zeroScores emptyReasoning ["chunk-9"] "new-eval" priorDb =
      (priorDb, none) ∧
    evalCount "run-1" "qa-1"
      (save_evaluation_to_db failAtInsert "run-1" "qa-1" "new answer"
        zeroLexical zeroScores emptyReasoning ["chunk-9"] "new-eval"
        priorDb).1 = 0 := by
  constructor
  · exact (save_statement_level_atomicity (fun _ => true) "run-1" "qa-1"
      "new answer" zeroLexical zeroScores emptyReasoning ["chunk-9"] "new-eval"
      priorDb).1 rfl
  · exact ((save_statement_level_atomicity failAtInsert "run-1" "qa-1"
      "new answer" zeroLexical zeroScores emptyReasoning ["chunk-9"] "new-eval"
      priorDb).2 rfl rfl).2

/-! ### C8: zero retrieved contexts -/

/-- C8: when retrieval returns zero contexts, the orchestrator emits a
`failed` progress event whose error names the collection, never calls the
generation model, surfaces the error, and leaves the database (including any
prior record for the key) untouched. -/
theorem zero_contexts_fail_immediately (trid qid q ref coll gen : String)
    (judge : RAGEvaluation) (failsAt : ℕ → Bool) (newId : String)
    (st : DbState) :
    (generate_and_evaluate trid qid q ref coll [] gen judge failsAt newId
      st).generationCalled = false ∧
    (generate_and_evaluate trid qid q ref coll [] gen judge failsAt newId
      st).db = st ∧
    (generate_and_evaluate trid qid q ref coll [] gen judge failsAt newId
      st).outcome = .error ("No contexts found in collection " ++ coll) ∧
    ({ stage := "contexts_retrieved", status := "failed"
       error := some ("No contexts found in collection " ++ coll) } :
        ProgressEvent) ∈
      (generate_and_evaluate trid qid q ref coll [] gen judge failsAt newId
        st).events := by
  unfold generate_and_evaluate
  rw [if_pos rfl]
  exact ⟨rfl, rfl, rfl, by simp⟩

/-! ### Range lemmas for the lexical metrics -/

theorem natCast_div_nonneg (a b : ℕ) : (0 : ℚ) ≤ (a : ℚ) / (b : ℚ) :=
  div_nonneg (Nat.cast_nonneg a) (Nat.cast_nonneg b)

theorem natCast_div_le_one {a b : ℕ} (h : a ≤ b) : (a : ℚ) / (b : ℚ) ≤ 1 := by
  rcases Nat.eq_zero_or_pos b with hb | hb
  · subst hb
    interval_cases a
    simp
  · rw [div_le_one (by exact_mod_cast hb)]
    exact_mod_cast h

/-- The harmonic mean `2pr/(p+r)` of two values in `[0,1]` is in `[0,1]`
(with the convention `x/0 = 0`). -/
theorem harmonic_bounds {p r : ℚ} (hp0 : 0 ≤ p) (hp1 : p ≤ 1) (hr0 : 0 ≤ r)
    (hr1 : r ≤ 1) : 0 ≤ 2 * p * r / (p + r) ∧ 2 * p * r / (p + r) ≤ 1 := by
  constructor
  · exact div_nonneg (by positivity) (by positivity)
  · rcases eq_or_lt_of_le (add_nonneg hp0 hr0) with h | h
    · rw [← h, div_zero]
      norm_num
    · rw [div_le_one h]
      nlinarith [mul_nonneg hp0 (sub_nonneg.2 hr1), mul_nonneg hr0 (sub_nonneg.2 hp1)]

theorem lcsLen_le_left (a b : List String) : lcsLen a b ≤ a.length := by
  induction a, b using lcsLen.induct with
  | case1 b => simp [lcsLen]
  | case2 a as => simp [lcsLen]
  | case3 as b bs ih =>
    rw [lcsLen, if_pos rfl]
    simp only [List.length_cons]
    omega
  | case4 a as b bs h ih1 ih2 =>
    rw [lcsLen, if_neg h]
    simp only [List.length_cons] at *
    omega

theorem lcsLen_le_right (a b : List String) : lcsLen a b ≤ b.length := by
  induction a, b using lcsLen.induct with
  | case1 b => simp [lcsLen]
  | case2 a as => simp [lcsLen]
  | case3 as b bs ih =>
    rw [lcsLen, if_pos rfl]
    simp only [List.length_cons]
    omega
  | case4 a as b bs h ih1 ih2 =>
    rw [lcsLen, if_neg h]
    simp only [List.length_cons] at *
    omega

theorem lcsLen_self (a : List String) : lcsLen a a = a.length := by
  induction a with
  | nil => simp [lcsLen]
  | cons x xs ih => rw [lcsLen, if_pos rfl, ih, List.length_cons]

theorem interCount_le_left (a b : List String) : interCount a b ≤ a.length := by
  have := Multiset.card_le_card (Multiset.inter_le_left (a : Multiset String) b)
  simpa [interCount] using this

theorem interCount_le_right (a b : List String) : interCount a b ≤ b.length := by
  have := Multiset.card_le_card (Multiset.inter_le_right (a : Multiset String) b)
  simpa [interCount] using this

/-- Fold steps that preserve a predicate preserve it over the whole fold. -/
theorem foldl_preserve {α β : Type} (P : β → Prop) (step : β → α → β)
    (h : ∀ b a, P b → P (step b a)) :
    ∀ (l : List α) (b : β), P b → P (l.foldl step b) := by
  intro l
  induction l with
  | nil => exact fun b hb => hb
  | cons x xs ih => exact fun b hb => ih _ (h _ _ hb)

def rougeInRange (b : RougeResult) : Prop :=
  0 ≤ b.precision ∧ b.precision ≤ 1 ∧ 0 ≤ b.«recall» ∧ b.«recall» ≤ 1 ∧
    0 ≤ b.f1 ∧ b.f1 ≤ 1

theorem ite_preserve {β : Type} (P : β → Prop) (c : Prop) [Decidable c]
    (x y : β) (hx : P x) (hy : P y) : P (if c then x else y) := by
  split
  · exact hx
  · exact hy

/-- Bounds for the F-beta expression of `rouge_l` at `beta2 = 1`. -/
theorem fbeta1_bounds {p r : ℚ} (hp0 : 0 ≤ p) (hp1 : p ≤ 1) (hr0 : 0 ≤ r)
    (hr1 : r ≤ 1) :
    0 ≤ (1 + 1) * p * r / (r + 1 * p) ∧ (1 + 1) * p * r / (r + 1 * p) ≤ 1 := by
  have h := harmonic_bounds hp0 hp1 hr0 hr1
  have heq : (1 + 1) * p * r / (r + 1 * p) = 2 * p * r / (p + r) := by ring_nf
  rw [heq]
  exact h

theorem rougeStep_range (cToks : List String) (best : RougeResult)
    (hb : rougeInRange best) (ref : String) :
    rougeInRange (rougeStep cToks 1 best ref) := by
  simp only [rougeStep]
  refine ite_preserve rougeInRange _ _ _ hb ?_
  refine ite_preserve rougeInRange _ _ _ ?_ hb
  have hp0 := natCast_div_nonneg (lcsLen cToks (tokenize ref)) cToks.length
  have hp1 := natCast_div_le_one (lcsLen_le_left cToks (tokenize ref))
  have hr0 := natCast_div_nonneg (lcsLen cToks (tokenize ref)) (tokenize ref).length
  have hr1 := natCast_div_le_one (lcsLen_le_right cToks (tokenize ref))
  refine ⟨hp0, hp1, hr0, hr1, ?_, ?_⟩
  · exact (ite_preserve (fun v => 0 ≤ v ∧ v ≤ 1) _ _ _
      ⟨le_refl 0, zero_le_one⟩ (fbeta1_bounds hp0 hp1 hr0 hr1)).1
  · exact (ite_preserve (fun v => 0 ≤ v ∧ v ≤ 1) _ _ _
      ⟨le_refl 0, zero_le_one⟩ (fbeta1_bounds hp0 hp1 hr0 hr1)).2

theorem rouge_l_range (candidate : String) (references : List String) :
    rougeInRange (rouge_l candidate references 1) := by
  have hz : rougeInRange ⟨0, 0, 0, 0⟩ :=
    ⟨le_refl 0, zero_le_one, le_refl 0, zero_le_one, le_refl 0, zero_le_one⟩
  simp only [rouge_l]
  rw [one_mul]
  refine ite_preserve rougeInRange _ _ _ hz ?_
  exact foldl_preserve rougeInRange _
    (fun b a hb => rougeStep_range (tokenize candidate) b hb a) references _ hz

theorem squad_em_range (candidate : String) (references : List String) :
    0 ≤ squad_em candidate references ∧ squad_em candidate references ≤ 1 := by
  unfold squad_em
  split <;> norm_num

theorem squadF1Step_range (cand : List String) (best : ℚ)
    (hb : 0 ≤ best ∧ best ≤ 1) (r : String) :
    0 ≤ squadF1Step cand best r ∧ squadF1Step cand best r ≤ 1 := by
  simp only [squadF1Step]
  refine ite_preserve (fun v => 0 ≤ v ∧ v ≤ 1) _ _ _ hb ?_
  have hnum := harmonic_bounds
    (natCast_div_nonneg (interCount cand (emTokens r)) cand.length)
    (natCast_div_le_one (interCount_le_left cand (emTokens r)))
    (natCast_div_nonneg (interCount cand (emTokens r)) (emTokens r).length)
    (natCast_div_le_one (interCount_le_right cand (emTokens r)))
  have hf := ite_preserve (fun v => 0 ≤ v ∧ v ≤ 1) (interCount cand (emTokens r) = 0)
    _ _ ⟨le_refl 0, zero_le_one⟩ hnum
  exact ⟨le_max_iff.2 (Or.inl hb.1), max_le hb.2 hf.2⟩

theorem squad_token_f1_range (candidate : String) (references : List String) :
    0 ≤ squad_token_f1 candidate references ∧
      squad_token_f1 candidate references ≤ 1 := by
  simp only [squad_token_f1]
  refine ite_preserve (fun v => 0 ≤ v ∧ v ≤ 1) _ _ _ (by norm_num) ?_
  exact foldl_preserve (fun b => 0 ≤ b ∧ b ≤ 1) _
    (fun b a hb => squadF1Step_range _ b hb a) references 0 ⟨le_refl 0, zero_le_one⟩

def contentInRange (b : ContentResult) : Prop :=
  0 ≤ b.precision ∧ b.precision ≤ 1 ∧ 0 ≤ b.«recall» ∧ b.«recall» ≤ 1 ∧
    0 ≤ b.f1 ∧ b.f1 ≤ 1

theorem contentStep_range (c : List String) (best : ContentResult)
    (hb : contentInRange best) (r : String) :
    contentInRange (contentStep c best r) := by
  simp only [contentStep]
  refine ite_preserve contentInRange _ _ _ hb ?_
  have hp : 0 ≤ (if c ≠ [] then
      (interCount c (contentTokens (tokenize r)) : ℚ) / (c.length : ℚ) else 0) ∧
      (if c ≠ [] then
        (interCount c (contentTokens (tokenize r)) : ℚ) / (c.length : ℚ) else 0) ≤ 1 := by
    refine ite_preserve (fun v => 0 ≤ v ∧ v ≤ 1) _ _ _ ?_ (by norm_num)
    exact ⟨natCast_div_nonneg _ _,
      natCast_div_le_one (interCount_le_left c (contentTokens (tokenize r)))⟩
  have hr : 0 ≤ (if contentTokens (tokenize r) ≠ [] then
      (interCount c (contentTokens (tokenize r)) : ℚ) /
        ((contentTokens (tokenize r)).length : ℚ) else 0) ∧
      (if contentTokens (tokenize r) ≠ [] then
        (interCount c (contentTokens (tokenize r)) : ℚ) /
          ((contentTokens (tokenize r)).length : ℚ) else 0) ≤ 1 := by
    refine ite_preserve (fun v => 0 ≤ v ∧ v ≤ 1) _ _ _ ?_ (by norm_num)
    exact ⟨natCast_div_nonneg _ _,
      natCast_div_le_one (interCount_le_right c (contentTokens (tokenize r)))⟩
  refine ite_preserve contentInRange _ _ _ ?_ hb
  refine ⟨hp.1, hp.2, hr.1, hr.2, ?_, ?_⟩
  · exact (ite_preserve (fun v => 0 ≤ v ∧ v ≤ 1) _ _ _
      ⟨le_refl 0, zero_le_one⟩ (harmonic_bounds hp.1 hp.2 hr.1 hr.2)).1
  · exact (ite_preserve (fun v => 0 ≤ v ∧ v ≤ 1) _ _ _
      ⟨le_refl 0, zero_le_one⟩ (harmonic_bounds hp.1 hp.2 hr.1 hr.2)).2

theorem content_f1_range (candidate : String) (references : List String) :
    contentInRange (content_f1 candidate references) := by
  have hz : contentInRange ⟨0, 0, 0⟩ :=
    ⟨le_refl 0, zero_le_one, le_refl 0, zero_le_one, le_refl 0, zero_le_one⟩
  simp only [content_f1]
  split
  · exact hz
  · exact foldl_preserve contentInRange _
      (fun b a hb => contentStep_range _ b hb a) references _ hz

/-! ### BLEU bounds -/

theorem count_instances_eq (l : List (List String)) (g : List String) :
    @List.count (List String) List.instBEq g l =
      @List.count (List String) instBEqOfDecidableEq g l := by
  induction l with
  | nil => rfl
  | cons x xs ih =>
    simp only [List.count_cons, ih]
    congr 1
    by_cases hx : x = g <;> simp [hx]

theorem sum_dedup_count_eq_length (cand : List (List String)) :
    (cand.dedup.map (fun g => cand.count g)).sum = cand.length := by
  have h : (cand.dedup.map (fun g => cand.count g)).sum =
      (cand.dedup.map (fun g =>
        @List.count (List String) instBEqOfDecidableEq g cand)).sum := by
    apply congrArg
    exact List.map_congr_left (fun g _ => count_instances_eq cand g)
  rw [h]
  exact List.sum_map_count_dedup_eq_length cand

theorem clip_le_length (cand : List (List String))
    (refsNgrams : List (List (List String))) :
    clipCountsAcrossRefs cand refsNgrams ≤ cand.length := by
  unfold clipCountsAcrossRefs
  calc (cand.dedup.map (fun g => min (cand.count g) (maxRefCount refsNgrams g))).sum
      ≤ (cand.dedup.map (fun g => cand.count g)).sum :=
        List.sum_le_sum (fun g _ => min_le_left _ _)
    _ = cand.length := sum_dedup_count_eq_length cand

theorem one_le_bleuDenom (cToks : List String) (n : ℕ) : 1 ≤ bleuDenom cToks n :=
  le_max_left 1 _

theorem bleuDenom_ne_zero (cToks : List String) (n : ℕ) : bleuDenom cToks n ≠ 0 :=
  Nat.one_le_iff_ne_zero.1 (one_le_bleuDenom cToks n)

theorem bleuDenom_cast_pos (cToks : List String) (n : ℕ) :
    (0 : ℚ) < (bleuDenom cToks n : ℚ) := by
  exact_mod_cast Nat.lt_of_lt_of_le Nat.zero_lt_one (one_le_bleuDenom cToks n)

theorem clip_le_bleuDenom (cToks : List String) (n : ℕ)
    (refsNgrams : List (List (List String))) :
    clipCountsAcrossRefs (ngrams cToks n) refsNgrams ≤ bleuDenom cToks n :=
  le_trans (clip_le_length _ _) (le_max_right 1 _)

/-- With smoothing on, every n-gram precision is strictly positive and at
most 1. -/
theorem precisionsGo_bounds (cToks : List String) (refsTok : List (List String)) :
    ∀ (ns : List ℕ) (k : ℕ) (p : ℚ),
      p ∈ precisionsGo cToks refsTok true ns k → 0 < p ∧ p ≤ 1 := by
  intro ns
  induction ns with
  | nil => intro k p hp; simp [precisionsGo] at hp
  | cons n ns ih =>
    intro k p hp
    have hdd := bleuDenom_ne_zero cToks n
    have hdn := bleuDenom_cast_pos cToks n
    simp only [precisionsGo] at hp
    rw [if_pos hdd] at hp
    split at hp
    · rcases List.mem_cons.1 hp with hhd | htl
      · subst hhd
        constructor
        · apply div_pos one_pos
          positivity
        · rw [div_le_one (by positivity)]
          have h2 : (1 : ℚ) ≤ 2 ^ k := one_le_pow₀ (by norm_num)
          have hdn1 : (1 : ℚ) ≤ (bleuDenom cToks n : ℚ) := by
            exact_mod_cast one_le_bleuDenom cToks n
          calc (1 : ℚ) = 1 * 1 := by norm_num
            _ ≤ (bleuDenom cToks n : ℚ) * 2 ^ k :=
              mul_le_mul hdn1 h2 zero_le_one (le_trans zero_le_one hdn1)
      · exact ih (k + 1) p htl
    · next hz =>
      rcases List.mem_cons.1 hp with hhd | htl
      · subst hhd
        have hz' : (clipCountsAcrossRefs (ngrams cToks n)
            (refsTok.map (fun rt => ngrams rt n)) : ℚ) / (bleuDenom cToks n : ℚ) ≠ 0 := by
          intro hc
          exact hz ⟨trivial, hc⟩
        constructor
        · exact lt_of_le_of_ne (natCast_div_nonneg _ _) (Ne.symm hz')
        · rw [div_le_one hdn]
          exact_mod_cast clip_le_bleuDenom cToks n _
      · exact ih k p htl

theorem brevityPenalty_bounds (c r : ℕ) :
    0 ≤ brevityPenalty c r ∧ brevityPenalty c r ≤ 1 := by
  unfold brevityPenalty
  split
  · exact ⟨le_refl 0, zero_le_one⟩
  · split
    · exact ⟨zero_le_one, le_refl 1⟩
    · next hc hr =>
      constructor
      · exact le_of_lt (Real.exp_pos _)
      · rw [Real.exp_le_one_iff]
        have hcpos : (0 : ℝ) < (c : ℝ) := by
          have : c ≠ 0 := hc
          exact_mod_cast Nat.pos_of_ne_zero this
        have hcr : (c : ℝ) ≤ (r : ℝ) := by
          exact_mod_cast Nat.le_of_not_lt hr
        have : (1 : ℝ) ≤ (r : ℝ) / (c : ℝ) := (one_le_div hcpos).2 hcr
        linarith

theorem brevityPenalty_self (c : ℕ) (hc : c ≠ 0) : brevityPenalty c c = 1 := by
  unfold brevityPenalty
  rw [if_neg hc, if_neg (lt_irrefl c)]
  rw [div_self (by exact_mod_cast hc : (c : ℝ) ≠ 0)]
  simp

theorem list_sum_nonpos {l : List ℝ} (h : ∀ x ∈ l, x ≤ 0) : l.sum ≤ 0 := by
  induction l with
  | nil => simp
  | cons x xs ih =>
    rw [List.sum_cons]
    have := h x (List.mem_cons_self x xs)
    have := ih (fun y hy => h y (List.mem_cons_of_mem x hy))
    linarith

theorem bleuLogSum_nonpos (ws ps : List ℚ) (hw : ∀ w ∈ ws, 0 ≤ w)
    (hp : ∀ p ∈ ps, p ≤ 1) : bleuLogSum ws ps ≤ 0 := by
  unfold bleuLogSum
  apply list_sum_nonpos
  intro x hx
  rcases List.mem_map.1 hx with ⟨⟨w, p⟩, hmem, rfl⟩
  have hwm : 0 ≤ w := hw w (List.of_mem_zip hmem).1
  have hpm : p ≤ 1 := hp p (List.of_mem_zip hmem).2
  have hterm : (if 0 < p then Real.log (p : ℝ) else -1e9) ≤ 0 := by
    split
    · next hpos =>
      apply Real.log_nonpos
      · positivity
      · exact_mod_cast hpm
    · norm_num
  calc (w : ℝ) * (if 0 < p then Real.log (p : ℝ) else -1e9)
      ≤ (w : ℝ) * 0 := mul_le_mul_of_nonneg_left hterm (by exact_mod_cast hwm)
    _ = 0 := mul_zero _

theorem bleuGeoMean_nonneg (ls : ℝ) : 0 ≤ bleuGeoMean ls := by
  unfold bleuGeoMean
  split
  · exact le_of_lt (Real.exp_pos _)
  · exact le_refl 0

theorem bleuGeoMean_le_one {ls : ℝ} (h : ls ≤ 0) : bleuGeoMean ls ≤ 1 := by
  unfold bleuGeoMean
  split
  · exact Real.exp_le_one_iff.2 h
  · exact zero_le_one

theorem bleu_weights_nonneg (maxN : ℕ) :
    ∀ w ∈ List.replicate maxN (1 / (maxN : ℚ)), 0 ≤ w := by
  intro w hw
  rw [List.eq_of_mem_replicate hw]
  positivity

theorem effectiveRefLen_isSome (cLen : ℕ) (l : List ℕ) (h : l ≠ []) :
    ∃ r, effectiveRefLen cLen l = some r := by
  match l with
  | [] => exact absurd rfl h
  | r :: rs => exact ⟨_, rfl⟩

/-- BLEU is defined for a non-empty reference list and its score is in
`[0, 1]`. -/
theorem bleu_range (candidate : String) (references : List String)
    (h : references ≠ []) :
    ∃ b, bleu candidate references = some b ∧ 0 ≤ b.score ∧ b.score ≤ 1 ∧
      0 ≤ b.bp ∧ b.bp ≤ 1 := by
  simp only [bleu]
  split
  · exact ⟨_, rfl, le_refl 0, zero_le_one, le_refl 0, zero_le_one⟩
  · have hlens : (references.map tokenize).map List.length ≠ [] := by
      simp [h]
    obtain ⟨r0, hr0⟩ := effectiveRefLen_isSome (tokenize candidate).length _ hlens
    rw [hr0]
    have hls : bleuLogSum (List.replicate 4 (1 / (4 : ℚ)))
        (bleuPrecisions (tokenize candidate) (references.map tokenize) 4 true) ≤ 0 :=
      bleuLogSum_nonpos _ _ (bleu_weights_nonneg 4)
        (fun p hp => (precisionsGo_bounds _ _ _ _ p hp).2)
    refine ⟨_, rfl, ?_, ?_, ?_, ?_⟩
    · exact mul_nonneg (brevityPenalty_bounds _ _).1 (bleuGeoMean_nonneg _)
    · exact mul_le_one₀ (brevityPenalty_bounds _ _).2 (bleuGeoMean_nonneg _)
        (bleuGeoMean_le_one hls)
    · exact (brevityPenalty_bounds _ _).1
    · exact (brevityPenalty_bounds _ _).2

/-- C5: for every candidate and non-empty reference list, the metric values
reported by `score_texts` all lie in `[0, 1]`. -/
theorem score_texts_range (candidate : String) (references : List String)
    (h : references ≠ []) :
    ∃ res, score_texts candidate references = some res ∧
      0 ≤ res.BLEU ∧ res.BLEU ≤ 1 ∧
      0 ≤ res.ROUGE_L ∧ res.ROUGE_L ≤ 1 ∧
      0 ≤ res.SQuAD_EM ∧ res.SQuAD_EM ≤ 1 ∧
      0 ≤ res.SQuAD_token_F1 ∧ res.SQuAD_token_F1 ≤ 1 ∧
      0 ≤ res.ContentF1 ∧ res.ContentF1 ≤ 1 := by
  obtain ⟨b, hb, hs0, hs1, _, _⟩ := bleu_range candidate references h
  rcases hsc : score_texts candidate references with _ | res
  · rw [score_texts, hb, Option.map_some'] at hsc
    cases hsc
  · rw [score_texts, hb, Option.map_some'] at hsc
    have hres := Option.some.inj hsc
    have hr := rouge_l_range candidate references
    have hem := squad_em_range candidate references
    have htf := squad_token_f1_range candidate references
    have hcf := content_f1_range candidate references
    refine ⟨res, rfl, ?_, ?_, ?_, ?_, ?_, ?_, ?_, ?_, ?_, ?_⟩ <;> rw [← hres]
    · exact hs0
    · exact hs1
    · exact hr.2.2.2.2.1
    · exact hr.2.2.2.2.2
    · exact hem.1
    · exact hem.2
    · exact htf.1
    · exact htf.2
    · exact hcf.2.2.2.2.1
    · exact hcf.2.2.2.2.2

/-- C5 witness at a concrete candidate and reference list. -/
theorem score_texts_range_witness :
    (["The capital of France is Paris."] : List String) ≠ [] ∧
    ∃ res, score_texts "Paris is the capital of France."
        ["The capital of France is Paris."] = some res ∧
      0 ≤ res.BLEU ∧ res.BLEU ≤ 1 ∧
      0 ≤ res.ROUGE_L ∧ res.ROUGE_L ≤ 1 ∧
      0 ≤ res.SQuAD_EM ∧ res.SQuAD_EM ≤ 1 ∧
      0 ≤ res.SQuAD_token_F1 ∧ res.SQuAD_token_F1 ≤ 1 ∧
      0 ≤ res.ContentF1 ∧ res.ContentF1 ≤ 1 :=
  ⟨by decide, score_texts_range "Paris is the capital of France."
    ["The capital of France is Paris."] (by decide)⟩

/-! ### C4: identity (scoring a string against itself) -/

theorem maxRefCount_singleton (l : List (List String)) (g : List String) :
    maxRefCount [l] g = l.count g := by
  simp [maxRefCount]

theorem clip_self (cand : List (List String)) :
    clipCountsAcrossRefs cand [cand] = cand.length := by
  unfold clipCountsAcrossRefs
  calc (cand.dedup.map (fun g => min (cand.count g) (maxRefCount [cand] g))).sum
      = (cand.dedup.map (fun g => cand.count g)).sum := by
        apply congrArg
        apply List.map_congr_left
        intro g _
        rw [maxRefCount_singleton, min_self]
    _ = cand.length := sum_dedup_count_eq_length cand

theorem ngrams_length_pos (cToks : List String) (n : ℕ) (h : n ≤ cToks.length) :
    0 < (ngrams cToks n).length := by
  unfold ngrams
  rw [if_pos h]
  simp only [List.length_map, List.length_range]
  omega

theorem bleuDenom_self (cToks : List String) (n : ℕ) (h : n ≤ cToks.length) :
    bleuDenom cToks n = (ngrams cToks n).length := by
  unfold bleuDenom
  exact Nat.max_eq_right (ngrams_length_pos cToks n h)

/-- Against the single reference equal to the candidate, every precision of
every order `n ≤ |cToks|` is exactly 1 (no smoothing fires). -/
theorem precisionsGo_self_ones (cToks : List String) :
    ∀ (ns : List ℕ) (k : ℕ), (∀ n ∈ ns, n ≤ cToks.length) →
      precisionsGo cToks [cToks] true ns k = ns.map (fun _ => (1 : ℚ)) := by
  intro ns
  induction ns with
  | nil => intro k _; simp [precisionsGo]
  | cons n ns ih =>
    intro k hns
    have hn := hns n (List.mem_cons_self n ns)
    have hlen := ngrams_length_pos cToks n hn
    have hov : clipCountsAcrossRefs (ngrams cToks n)
        ([cToks].map (fun rt => ngrams rt n)) = (ngrams cToks n).length := by
      simp only [List.map_cons, List.map_nil]
      exact clip_self (ngrams cToks n)
    have hcast : ((ngrams cToks n).length : ℚ) ≠ 0 :=
      Nat.cast_ne_zero.2 (by omega)
    simp only [precisionsGo]
    rw [if_pos (bleuDenom_ne_zero cToks n), hov, bleuDenom_self cToks n hn]
    rw [div_self hcast]
    rw [if_neg (by simp)]
    rw [ih k (fun m hm => hns m (List.mem_cons_of_mem n hm))]
    simp

theorem bleuLogSum_ones (ws : List ℚ) :
    ∀ ps : List ℚ, (∀ p ∈ ps, p = 1) → bleuLogSum ws ps = 0 := by
  induction ws with
  | nil => intro ps _; simp [bleuLogSum]
  | cons w ws ih =>
    intro ps hps
    cases ps with
    | nil => simp [bleuLogSum]
    | cons p ps =>
      have hp1 : p = 1 := hps p (List.mem_cons_self p ps)
      have := ih ps (fun q hq => hps q (List.mem_cons_of_mem p hq))
      unfold bleuLogSum at *
      simp only [List.zip_cons_cons, List.map_cons, List.sum_cons, this, add_zero]
      rw [hp1]
      norm_num [Real.log_one]

theorem bleuGeoMean_zero : bleuGeoMean 0 = 1 := by
  unfold bleuGeoMean
  rw [if_pos (by norm_num)]
  exact Real.exp_zero

/-- Identity for BLEU: a candidate with at least `max_n = 4` tokens scored
against itself yields score 1, brevity penalty 1 and all precisions 1. -/
theorem bleu_self (s : String) (h4 : 4 ≤ (tokenize s).length) :
    ∃ b, bleu s [s] = some b ∧ b.score = 1 ∧ b.bp = 1 ∧
      b.by_n = [1, 1, 1, 1] := by
  have hne : tokenize s ≠ [] := by
    intro hc
    rw [hc] at h4
    simp at h4
  have hlen0 : (tokenize s).length ≠ 0 := by
    intro hc
    omega
  simp only [bleu]
  rw [if_neg hne]
  simp only [List.map_cons, List.map_nil]
  have hones : bleuPrecisions (tokenize s) [tokenize s] 4 true =
      [1, 1, 1, 1] := by
    unfold bleuPrecisions
    rw [precisionsGo_self_ones (tokenize s) _ 1 (by
      intro n hn
      simp only [List.map_map, List.mem_map, List.mem_range] at hn
      obtain ⟨m, hm, rfl⟩ := hn
      omega)]
    rfl
  have hls : bleuLogSum (List.replicate 4 (1 / ((4 : ℕ) : ℚ)))
      (bleuPrecisions (tokenize s) [tokenize s] 4 true) = 0 := by
    rw [hones]
    exact bleuLogSum_ones _ _ (by norm_num)
  refine ⟨_, rfl, ?_, ?_, hones⟩
  · simp only [List.foldl]
    rw [hls, bleuGeoMean_zero, brevityPenalty_self _ hlen0, one_mul]
  · simp only [List.foldl]
    exact brevityPenalty_self _ hlen0

/-- Identity for ROUGE-L: F1 is 1 for a non-empty candidate scored against
itself. -/
theorem rouge_l_self (s : String) (hne : tokenize s ≠ []) :
    (rouge_l s [s] 1).f1 = 1 := by
  have hlen : ((tokenize s).length : ℚ) ≠ 0 := by
    have := List.length_pos.2 hne
    exact Nat.cast_ne_zero.2 (by omega)
  simp only [rouge_l, rougeStep, List.foldl]
  rw [if_neg hne, if_neg hne, lcsLen_self, div_self hlen]
  norm_num

/-- Identity for SQuAD exact match. -/
theorem squad_em_self (s : String) (references : List String)
    (hmem : s ∈ references) : squad_em s references = 1 :=
  squad_em_eq_one_of_normalized_eq s s references hmem rfl

/-- C4 (amended): for every string whose tokenization has at least
`max_n = 4` tokens, scoring it against the single reference equal to itself
yields SQuAD_EM = 1, ROUGE-L F1 = 1 and BLEU = 1, with brevity penalty 1 and
every n-gram precision equal to 1.  (For shorter strings the add-one
smoothing leaves higher-order precisions strictly below 1, and an empty
tokenization short-circuits BLEU and ROUGE-L to 0.) -/
theorem score_texts_identity (s : String) (h4 : 4 ≤ (tokenize s).length) :
    ∃ res, score_texts s [s] = some res ∧ res.SQuAD_EM = 1 ∧
      res.ROUGE_L = 1 ∧ res.BLEU = 1 ∧ res.BLEU_BP = 1 ∧
      ∀ p ∈ res.BLEU_by_n, p = (1 : ℚ) := by
  have hne : tokenize s ≠ [] := by
    intro hc
    rw [hc] at h4
    simp at h4
  obtain ⟨b, hb, hscore, hbp, hbyn⟩ := bleu_self s h4
  rcases hsc : score_texts s [s] with _ | res
  · rw [score_texts, hb, Option.map_some'] at hsc
    cases hsc
  · rw [score_texts, hb, Option.map_some'] at hsc
    have hres := Option.some.inj hsc
    refine ⟨res, rfl, ?_, ?_, ?_, ?_, ?_⟩ <;> rw [← hres]
    · show squad_em s [s] = 1
      exact squad_em_self s [s] (List.mem_singleton.2 rfl)
    · show (rouge_l s [s] 1).f1 = 1
      exact rouge_l_self s hne
    · exact hscore
    · exact hbp
    · show ∀ p ∈ b.by_n, p = (1 : ℚ)
      rw [hbyn]
      intro p hp
      simpa using hp

/-- C4 witness: a four-token string. -/
theorem score_texts_identity_witness :
    4 ≤ (tokenize "one two three four").length ∧
    ∃ res, score_texts "one two three four" ["one two three four"] = some res ∧
      res.SQuAD_EM = 1 ∧ res.ROUGE_L = 1 ∧ res.BLEU = 1 ∧ res.BLEU_BP = 1 ∧
      ∀ p ∈ res.BLEU_by_n, p = (1 : ℚ) :=
  ⟨by decide, score_texts_identity "one two three four" (by decide)⟩

/-- C4 counterexample: for the one-token string "hi" scored against itself,
the reported n-gram precisions are `[1, 1/2, 1/4, 1/8]` (Chen & Cherry
smoothing replaces the empty higher-order precisions), so "every n-gram
precision equal to 1" is false for this input, refuting the claim as stated
for every string. -/
theorem score_texts_identity_cex :
    (score_texts "hi" ["hi"]).map ScoreTextsResult.BLEU_by_n =
      some [1, 1/2, 1/4, 1/8] ∧
    ¬ (∀ p ∈ [(1 : ℚ), 1/2, 1/4, 1/8], p = 1) := by
  have htok : tokenize "hi" = ["hi"] := by decide
  have hpre : bleuPrecisions ["hi"] [["hi"]] 4 true = [1, 1/2, 1/4, 1/8] := by
    norm_num [bleuPrecisions, precisionsGo, ngrams, clipCountsAcrossRefs, maxRefCount,
      bleuDenom, List.range_succ, List.dedup]
  constructor
  · simp only [score_texts, bleu, htok, List.map_cons, List.map_nil, List.length_cons,
      List.length_nil]
    rw [if_neg (by simp)]
    simp only [effectiveRefLen, List.foldl, Option.map_some']
    rw [hpre]
  · intro hall
    have := hall (1/2) (by norm_num)
    norm_num at this

/-! ### C6: adding a reference equal to the candidate -/

theorem rougeStep_f1_le (cToks : List String) (beta2 : ℚ) (best : RougeResult)
    (ref : String) : best.f1 ≤ (rougeStep cToks beta2 best ref).f1 := by
  simp only [rougeStep]
  split_ifs <;> first | exact le_rfl | linarith

theorem rouge_l_f1_append_self (candidate : String) (refs : List String) :
    (rouge_l candidate refs 1).f1 ≤
      (rouge_l candidate (refs ++ [candidate]) 1).f1 := by
  simp only [rouge_l]
  split
  · exact le_rfl
  · rw [List.foldl_append]
    simp only [List.foldl]
    exact rougeStep_f1_le _ _ _ _

theorem squad_em_append (candidate : String) (refs : List String) (x : String) :
    squad_em candidate refs ≤ squad_em candidate (refs ++ [x]) := by
  unfold squad_em
  by_cases h : refs.any (fun r => normalizeForEm candidate = normalizeForEm r)
  · rw [if_pos h, if_pos (by simp only [List.any_append]; rw [h]; rfl)]
  · rw [if_neg h]
    split <;> norm_num

theorem squad_token_f1_append_self (candidate : String) (refs : List String) :
    squad_token_f1 candidate refs ≤
      squad_token_f1 candidate (refs ++ [candidate]) := by
  simp only [squad_token_f1]
  split
  · exact le_rfl
  · rw [List.foldl_append]
    simp only [List.foldl, squadF1Step]
    split
    · exact le_rfl
    · exact le_max_left _ _

theorem contentStep_f1_le (c : List String) (best : ContentResult) (r : String) :
    best.f1 ≤ (contentStep c best r).f1 := by
  simp only [contentStep]
  split_ifs <;> first | exact le_rfl | linarith

theorem content_f1_append_self (candidate : String) (refs : List String) :
    (content_f1 candidate refs).f1 ≤
      (content_f1 candidate (refs ++ [candidate])).f1 := by
  simp only [content_f1]
  split
  · exact le_rfl
  · rw [List.foldl_append]
    simp only [List.foldl]
    exact contentStep_f1_le _ _ _

theorem foldr_max_init_le {l : List ℕ} {b b' : ℕ} (h : b ≤ b') :
    l.foldr max b ≤ l.foldr max b' := by
  induction l with
  | nil => exact h
  | cons x xs ih => exact max_le_max le_rfl ih

theorem maxRefCount_append (refs : List (List (List String)))
    (x : List (List String)) (g : List String) :
    maxRefCount refs g ≤ maxRefCount (refs ++ [x]) g := by
  unfold maxRefCount
  rw [List.map_append, List.foldr_append]
  exact foldr_max_init_le (Nat.zero_le _)

theorem clip_append_mono (cand : List (List String))
    (refs : List (List (List String))) (x : List (List String)) :
    clipCountsAcrossRefs cand refs ≤ clipCountsAcrossRefs cand (refs ++ [x]) := by
  unfold clipCountsAcrossRefs
  exact List.sum_le_sum
    (fun g _ => min_le_min le_rfl (maxRefCount_append refs x g))

/-- Pointwise comparison of the smoothed precision lists when one more
reference is appended: overlaps only grow, smoothing counters for the larger
reference list never exceed those for the smaller one. -/
theorem precisionsGo_append_le (cToks : List String)
    (refsTok : List (List String)) (extra : List String) :
    ∀ (ns : List ℕ) (k k' : ℕ), k' ≤ k →
      List.Forall₂ (· ≤ ·) (precisionsGo cToks refsTok true ns k)
        (precisionsGo cToks (refsTok ++ [extra]) true ns k') := by
  intro ns
  induction ns with
  | nil =>
    intro k k' _
    simp only [precisionsGo]
    exact List.Forall₂.nil
  | cons n ns ih =>
    intro k k' hkk
    have hdd := bleuDenom_ne_zero cToks n
    have hdnq := bleuDenom_cast_pos cToks n
    have hov : clipCountsAcrossRefs (ngrams cToks n)
        (refsTok.map (fun rt => ngrams rt n)) ≤
        clipCountsAcrossRefs (ngrams cToks n)
          ((refsTok ++ [extra]).map (fun rt => ngrams rt n)) := by
      rw [List.map_append]
      simp only [List.map_cons, List.map_nil]
      exact clip_append_mono _ _ _
    simp only [precisionsGo]
    rw [if_pos hdd, if_pos hdd]
    split
    · next h1 =>
      split
      · next h2 =>
        apply List.Forall₂.cons
        · apply one_div_le_one_div_of_le
          · positivity
          · have h2k : (2 : ℚ) ^ k' ≤ 2 ^ k := pow_le_pow_right₀ one_le_two hkk
            exact mul_le_mul_of_nonneg_left h2k (le_of_lt hdnq)
        · exact ih (k + 1) (k' + 1) (by omega)
      · next h2 =>
        apply List.Forall₂.cons
        · have hz : clipCountsAcrossRefs (ngrams cToks n)
              ((refsTok ++ [extra]).map (fun rt => ngrams rt n)) ≠ 0 := by
            intro hc
            refine h2 ⟨trivial, ?_⟩
            rw [hc]
            norm_num
          have h1' : (1 : ℚ) ≤ (clipCountsAcrossRefs (ngrams cToks n)
              ((refsTok ++ [extra]).map (fun rt => ngrams rt n)) : ℚ) := by
            exact_mod_cast Nat.one_le_iff_ne_zero.2 hz
          have h2k : (1 : ℚ) ≤ 2 ^ k := one_le_pow₀ one_le_two
          calc (1 : ℚ) / ((bleuDenom cToks n : ℚ) * 2 ^ k)
              ≤ 1 / (bleuDenom cToks n : ℚ) := by
                apply one_div_le_one_div_of_le hdnq
                exact le_mul_of_one_le_right (le_of_lt hdnq) h2k
            _ ≤ (clipCountsAcrossRefs (ngrams cToks n)
                  ((refsTok ++ [extra]).map (fun rt => ngrams rt n)) : ℚ) /
                  (bleuDenom cToks n : ℚ) :=
                (div_le_div_iff_of_pos_right hdnq).2 h1'
        · exact ih (k + 1) k' (by omega)
    · next h1 =>
      split
      · next h2 =>
        exfalso
        apply h1
        obtain ⟨-, hc⟩ := h2
        rw [div_eq_zero_iff] at hc
        rcases hc with hc | hc
        · have hz' : clipCountsAcrossRefs (ngrams cToks n)
              ((refsTok ++ [extra]).map (fun rt => ngrams rt n)) = 0 := by
            exact_mod_cast hc
          have : clipCountsAcrossRefs (ngrams cToks n)
              (refsTok.map (fun rt => ngrams rt n)) = 0 := by omega
          refine ⟨trivial, ?_⟩
          rw [this]
          norm_num
        · exact absurd hc (ne_of_gt hdnq)
      · next h2 =>
        apply List.Forall₂.cons
        · exact (div_le_div_iff_of_pos_right hdnq).2 (by exact_mod_cast hov)
        · exact ih k k' hkk

theorem bleuLogSum_mono (ws : List ℚ) (hw : ∀ w ∈ ws, 0 ≤ w) :
    ∀ (ps ps' : List ℚ), (∀ p ∈ ps, 0 < p) →
      List.Forall₂ (· ≤ ·) ps ps' →
      bleuLogSum ws ps ≤ bleuLogSum ws ps' := by
  induction ws with
  | nil =>
    intro ps ps' _ _
    simp [bleuLogSum]
  | cons w ws ih =>
    intro ps ps' hpos hf
    cases hf with
    | nil => simp [bleuLogSum]
    | cons hpp htail =>
      next p p' ps ps' =>
        have hp : 0 < p := hpos p (List.mem_cons_self _ _)
        have hp' : 0 < p' := lt_of_lt_of_le hp hpp
        unfold bleuLogSum
        simp only [List.zip_cons_cons, List.map_cons, List.sum_cons]
        apply add_le_add
        · rw [if_pos hp, if_pos hp']
          apply mul_le_mul_of_nonneg_left
          · exact Real.log_le_log (by exact_mod_cast hp) (by exact_mod_cast hpp)
          · exact_mod_cast hw w (List.mem_cons_self _ _)
        · exact ih (fun x hx => hw x (List.mem_cons_of_mem _ hx)) ps ps'
            (fun q hq => hpos q (List.mem_cons_of_mem _ hq)) htail

theorem bleuGeoMean_mono {a b : ℝ} (h : a ≤ b) :
    bleuGeoMean a ≤ bleuGeoMean b := by
  unfold bleuGeoMean
  split
  · next ha => rw [if_pos (lt_of_lt_of_le ha h)]; exact Real.exp_le_exp.2 h
  · split
    · exact le_of_lt (Real.exp_pos _)
    · exact le_rfl

theorem effectiveRefLen_append (cLen : ℕ) (l : List ℕ) :
    effectiveRefLen cLen (l ++ [cLen]) = some cLen := by
  cases l with
  | nil => rfl
  | cons a as =>
    show some ((as ++ [cLen]).foldl
      (fun best rl => if effKeyLt cLen rl best then rl else best) a) = some cLen
    rw [List.foldl_append]
    simp only [List.foldl]
    congr 1
    set best := as.foldl
      (fun best rl => if effKeyLt cLen rl best then rl else best) a with hbest
    by_cases hb : best = cLen
    · rw [hb]
      split <;> rfl
    · rw [if_pos]
      left
      simp only [sub_self, Int.natAbs_zero]
      have : ((best : ℤ) - (cLen : ℤ)).natAbs ≠ 0 := by
        intro hc
        apply hb
        omega
      omega

theorem bleu_score_append_self (candidate : String) (refs : List String)
    (h : refs ≠ []) :
    ∃ b b', bleu candidate refs = some b ∧
      bleu candidate (refs ++ [candidate]) = some b' ∧ b.score ≤ b'.score := by
  by_cases hct : tokenize candidate = []
  · simp only [bleu]
    rw [if_pos hct, if_pos hct]
    exact ⟨_, _, rfl, rfl, le_rfl⟩
  · have hlen0 : (tokenize candidate).length ≠ 0 := by
      intro hc
      exact hct (List.length_eq_zero.1 hc)
    simp only [bleu]
    rw [if_neg hct, if_neg hct]
    obtain ⟨r0, hr0⟩ := effectiveRefLen_isSome (tokenize candidate).length
      ((refs.map tokenize).map List.length) (by simp [h])
    have hr1 : effectiveRefLen (tokenize candidate).length
        (((refs ++ [candidate]).map tokenize).map List.length) =
        some (tokenize candidate).length := by
      rw [List.map_append, List.map_append]
      simp only [List.map_cons, List.map_nil]
      exact effectiveRefLen_append _ _
    rw [hr0, hr1]
    simp only [Option.map_some']
    refine ⟨_, _, rfl, rfl, ?_⟩
    have hforall : List.Forall₂ (· ≤ ·)
        (bleuPrecisions (tokenize candidate) (refs.map tokenize) 4 true)
        (bleuPrecisions (tokenize candidate) ((refs ++ [candidate]).map tokenize)
          4 true) := by
      unfold bleuPrecisions
      rw [List.map_append]
      simp only [List.map_cons, List.map_nil]
      exact precisionsGo_append_le (tokenize candidate) (refs.map tokenize)
        (tokenize candidate) _ 1 1 le_rfl
    have hls := bleuLogSum_mono (List.replicate 4 (1 / ((4 : ℕ) : ℚ)))
      (bleu_weights_nonneg 4) _ _
      (fun p hp => (precisionsGo_bounds _ _ _ _ p hp).1) hforall
    have hgeo := bleuGeoMean_mono hls
    show brevityPenalty (tokenize candidate).length r0 * _ ≤
      brevityPenalty (tokenize candidate).length (tokenize candidate).length * _
    rw [brevityPenalty_self _ hlen0, one_mul]
    calc brevityPenalty (tokenize candidate).length r0 *
        bleuGeoMean (bleuLogSum (List.replicate 4 (1 / ((4 : ℕ) : ℚ)))
          (bleuPrecisions (tokenize candidate) (refs.map tokenize) 4 true))
        ≤ 1 * bleuGeoMean (bleuLogSum (List.replicate 4 (1 / ((4 : ℕ) : ℚ)))
            (bleuPrecisions (tokenize candidate) (refs.map tokenize) 4 true)) :=
          mul_le_mul_of_nonneg_right (brevityPenalty_bounds _ _).2
            (bleuGeoMean_nonneg _)
      _ = bleuGeoMean (bleuLogSum (List.replicate 4 (1 / ((4 : ℕ) : ℚ)))
            (bleuPrecisions (tokenize candidate) (refs.map tokenize) 4 true)) :=
          one_mul _
      _ ≤ _ := hgeo

/-- C6: appending one more reference equal to the candidate cannot decrease
any best-of-references metric: BLEU, ROUGE-L F1, SQuAD EM, SQuAD token F1 and
content F1 are all monotone under this extension. -/
theorem metrics_append_self_reference_mono (candidate : String)
    (refs : List String) (h : refs ≠ []) :
    (∃ b b', bleu candidate refs = some b ∧
      bleu candidate (refs ++ [candidate]) = some b' ∧ b.score ≤ b'.score) ∧
    (rouge_l candidate refs 1).f1 ≤
      (rouge_l candidate (refs ++ [candidate]) 1).f1 ∧
    squad_em candidate refs ≤ squad_em candidate (refs ++ [candidate]) ∧
    squad_token_f1 candidate refs ≤
      squad_token_f1 candidate (refs ++ [candidate]) ∧
    (content_f1 candidate refs).f1 ≤
      (content_f1 candidate (refs ++ [candidate])).f1 :=
  ⟨bleu_score_append_self candidate refs h,
    rouge_l_f1_append_self candidate refs,
    squad_em_append candidate refs candidate,
    squad_token_f1_append_self candidate refs,
    content_f1_append_self candidate refs⟩

/-- C6 witness at a concrete candidate and reference list. -/
theorem metrics_append_self_reference_mono_witness :
    (["the dog barked"] : List String) ≠ [] ∧
    ((∃ b b', bleu "the cat sat" ["the dog barked"] = some b ∧
      bleu "the cat sat" (["the dog barked"] ++ ["the cat sat"]) = some b' ∧
      b.score ≤ b'.score) ∧
    (rouge_l "the cat sat" ["the dog barked"] 1).f1 ≤
      (rouge_l "the cat sat" (["the dog barked"] ++ ["the cat sat"]) 1).f1 ∧
    squad_em "the cat sat" ["the dog barked"] ≤
      squad_em "the cat sat" (["the dog barked"] ++ ["the cat sat"]) ∧
    squad_token_f1 "the cat sat" ["the dog barked"] ≤
      squad_token_f1 "the cat sat" (["the dog barked"] ++ ["the cat sat"]) ∧
    (content_f1 "the cat sat" ["the dog barked"]).f1 ≤
      (content_f1 "the cat sat" (["the dog barked"] ++ ["the cat sat"])).f1) :=
  ⟨by decide,
    metrics_append_self_reference_mono "the cat sat" ["the dog barked"]
      (by decide)⟩

/-! ### C9: totality of the lexical metrics -/

/-- C9: for every candidate (including empty or punctuation-only strings) and
every non-empty reference list, `bleu` and `score_texts` (with the default
aggregate weights) return a result — the only partial operation, Python's
`min` over the reference lengths, is reached only with a non-empty list —
and every division is guarded: `rouge_l`, `squad_token_f1` and `content_f1`
divide only by the lengths of token lists their early returns have shown to
be non-empty, and the `bleu` denominators carry the `max(1, ·)` floor, so
they are at least 1 (and the smoothing divisor `denom * 2^k` is positive). -/
theorem lexical_metrics_total (candidate : String) (references : List String)
    (h : references ≠ []) :
    (bleu candidate references).isSome ∧
    (score_texts candidate references).isSome ∧
    (∀ n, 1 ≤ bleuDenom (tokenize candidate) n) ∧
    (∀ n k, (0 : ℚ) < (bleuDenom (tokenize candidate) n : ℚ) * 2 ^ k) ∧
    (tokenize candidate ≠ [] → 0 < (tokenize candidate).length) ∧
    (emTokens candidate ≠ [] → 0 < (emTokens candidate).length) ∧
    (contentTokens (tokenize candidate) ≠ [] →
      0 < (contentTokens (tokenize candidate)).length) := by
  obtain ⟨b, hb, _⟩ := bleu_range candidate references h
  refine ⟨by rw [hb]; rfl, ?_, fun n => one_le_bleuDenom _ n, ?_, ?_, ?_, ?_⟩
  · rw [score_texts, hb, Option.map_some']
    rfl
  · intro n k
    have := bleuDenom_cast_pos (tokenize candidate) n
    positivity
  · exact fun hn => List.length_pos.2 hn
  · exact fun hn => List.length_pos.2 hn
  · exact fun hn => List.length_pos.2 hn

/-- C9 witness: a punctuation-and-whitespace-only candidate against a
one-element reference list. -/
theorem lexical_metrics_total_witness :
    (["ref text"] : List String) ≠ [] ∧
    (bleu "?!  ..." ["ref text"]).isSome ∧
    (score_texts "?!  ..." ["ref text"]).isSome :=
  ⟨by decide,
    (lexical_metrics_total "?!  ..." ["ref text"] (by decide)).1,
    (lexical_metrics_total "?!  ..." ["ref text"] (by decide)).2.1⟩

end GenQAEval
